import Mathlib

/-!
Verification development for the outline (bookmark) module of pikepdf
(`src/pikepdf/models/outlines.py`).

The PDF document's object graph is shallowly embedded: indirect objects are
addressed by a natural-number identity (`objgen`), and the heap is a total
function from identities to dictionary records.  Python exceptions are
modelled with `Except` / explicit error components; in-place mutation is
modelled by explicit state passing.  Load traversal carries a fuel parameter
(`none` result = fuel exhausted) because the source's while-loop can, on
cyclic inputs, only be bounded through the `visited` set.
-/

namespace PikePdf

/-- `PageLocation` enum from the source. -/
inductive PageLocation where
  | XYZ | Fit | FitH | FitV | FitR | FitB | FitBH | FitBV
deriving DecidableEq, Repr

/-- `PageLocation.name` — the Python enum member name. -/
def PageLocation.pname : PageLocation → String
  | .XYZ => "XYZ"
  | .Fit => "Fit"
  | .FitH => "FitH"
  | .FitV => "FitV"
  | .FitR => "FitR"
  | .FitB => "FitB"
  | .FitBH => "FitBH"
  | .FitBV => "FitBV"

/-- `PageLocation[loc_str]` — enum lookup by name (raises `KeyError` in
Python on failure, modelled as `none`). -/
def pageLocationOfString : String → Option PageLocation
  | "XYZ" => some .XYZ
  | "Fit" => some .Fit
  | "FitH" => some .FitH
  | "FitV" => some .FitV
  | "FitR" => some .FitR
  | "FitB" => some .FitB
  | "FitBH" => some .FitBH
  | "FitBV" => some .FitBV
  | _ => none

/-- `PAGE_LOCATION_ARGS` dictionary; `none` for the keys absent from the
Python dict (`Fit`, `FitB`), mirroring `dict.get`. -/
def PAGE_LOCATION_ARGS : PageLocation → Option (List String)
  | .XYZ => some ["left", "top", "zoom"]
  | .FitH => some ["top"]
  | .FitV => some ["left"]
  | .FitR => some ["left", "bottom", "right", "top"]
  | .FitBH => some ["top"]
  | .FitBV => some ["left"]
  | .Fit => none
  | .FitB => none

/-- Atoms appearing in a destination array. -/
inductive PdfAtom where
  | pageRef (n : Nat)
  | pname (s : String)
  | num (i : Int)
deriving DecidableEq, Repr

/-- Opaque PDF values stored in `/Dest` or `/A` fields: destination arrays
built by `make_page_destination`, or arbitrary pass-through content
(named destinations, action dictionaries) abstracted as `raw`. -/
inductive PdfVal where
  | arr (xs : List PdfAtom)
  | raw (s : String)
deriving DecidableEq, Repr

/-- Python exceptions raised by the module. `structureError` carries the
offending object identity (the formatted `objgen` of the message). -/
inductive PdfError where
  | valueError (s : String)
  | indexError
  | structureError (objgen : Nat)
  | attributeError
deriving DecidableEq, Repr

/-- One dictionary object of the document graph; every managed key is an
optional field (`none` = key absent).  Reference-valued keys (`/First`,
`/Last`, `/Next`, `/Prev`, `/Parent`) hold object identities. -/
structure DictObj where
  typ : Option String := none
  title : Option String := none
  dest : Option PdfVal := none
  a : Option PdfVal := none
  first : Option Nat := none
  last : Option Nat := none
  next : Option Nat := none
  prev : Option Nat := none
  parent : Option Nat := none
  count : Option Int := none
deriving DecidableEq, Repr

/-- The document heap: total map from object identity to dictionary. -/
abbrev Heap := Nat → DictObj

/-- Point update of the heap. -/
def hupd (h : Heap) (g : Nat) (f : DictObj → DictObj) : Heap :=
  fun x => if x = g then f (h x) else h x

/-- The `Pdf` collaborator: a page list (`numPages` pages, page `n`
yielding the opaque reference `PdfAtom.pageRef n`), the object heap, a
fresh-identity counter for `make_indirect`, and `Root.Outlines`
(`none` = the key is absent from `Root`). -/
structure Pdf where
  numPages : Nat
  heap : Heap
  nextId : Nat
  rootOutlines : Option Nat

/-- A document whose heap got a point update (shorthand used in spec
statements; definitionally `{ pdf with heap := hupd pdf.heap g f }`). -/
def pdfUpd (pdf : Pdf) (g : Nat) (f : DictObj → DictObj) : Pdf :=
  { pdf with heap := hupd pdf.heap g f }

/-- Keyword-argument map (`left`, `top`, ...); numeric values as `Int`. -/
abbrev Kwargs := List (String × Int)

/-- `kwargs.get(k, 0)`. -/
def kwget (kw : Kwargs) (k : String) : Int :=
  ((kw.find? (fun p => p.1 == k)).map (·.2)).getD 0

/-- A `page_location` argument: either a `PageLocation` value or a string. -/
inductive PageLocSpec where
  | loc (l : PageLocation)
  | str (s : String)
deriving DecidableEq, Repr

/-- Python truthiness of a `page_location` argument (`None` handled by the
surrounding `Option`; the empty string is falsy). -/
def PageLocSpec.truthy : PageLocSpec → Bool
  | .loc _ => true
  | .str s => s ≠ ""

/-- `make_page_destination(pdf, page_num, page_location, **kwargs)`. -/
def make_page_destination (pdf : Pdf) (page_num : Nat)
    (page_location : Option PageLocSpec) (kwargs : Kwargs) :
    Except PdfError (List PdfAtom) :=
  -- res = [pdf.pages[page_num]]
  if page_num < pdf.numPages then
    let res : List PdfAtom := [.pageRef page_num]
    -- `if page_location:` — truthiness: `None` and `""` are falsy
    match page_location with
    | some pl =>
      if pl.truthy then
        match pl with
        | .loc l =>
          let res := res ++ [.pname ("/" ++ l.pname)]
          match PAGE_LOCATION_ARGS l with
          | some names => .ok (res ++ names.map (fun k => .num (kwget kwargs k)))
          | none => .ok res
        | .str s =>
          match pageLocationOfString s with
          | none => .error (.valueError ("Invalid or unsupported page location type " ++ s))
          | some l =>
            let res := res ++ [.pname ("/" ++ s)]
            match PAGE_LOCATION_ARGS l with
            | some names => .ok (res ++ names.map (fun k => .num (kwget kwargs k)))
            | none => .ok res
      else
        .ok (res ++ [.pname "/Fit"])
    | none => .ok (res ++ [.pname "/Fit"])
  else .error .indexError

/-- An outline destination as held by an `OutlineItem`: a raw (unresolved)
page index, or any other PDF object (resolved array, named destination). -/
inductive ODest where
  | page (n : Nat)
  | val (v : PdfVal)
deriving DecidableEq, Repr

/-- In-memory outline node (`OutlineItem`). `obj` is the identity of the
backing dictionary, if any. -/
structure OutlineItem where
  title : String
  destination : Option ODest := none
  page_location : Option PageLocSpec := none
  page_location_kwargs : Kwargs := []
  action : Option PdfVal := none
  obj : Option Nat := none
  is_closed : Bool := false
  children : List OutlineItem := []

/-- `OutlineItem.from_dictionary_object(obj)`: reads `Title`, `Dest`, `A`;
keeps the backing object.  Accessing a missing `Title` raises
(`AttributeError`), modelled as an error. -/
def OutlineItem.from_dictionary_object (g : Nat) (d : DictObj) :
    Except PdfError OutlineItem :=
  match d.title with
  | none => .error .attributeError
  | some t => .ok { title := t, destination := d.dest.map ODest.val,
                    page_location := none, page_location_kwargs := [],
                    action := d.a, obj := some g,
                    is_closed := false, children := [] }

/-- Body of `OutlineItem.to_dictionary_object` after the allocate-or-reuse
choice of the backing object `g`: write `Title`, then write `Dest`
(resolving a raw page index through `make_page_destination`, a one-time
mutation of `self.destination`) removing `A`, else write `A` removing
`Dest`.  Returns the updated document, the updated item, and `g`. -/
def writeTitleDestA (pdf : Pdf) (item : OutlineItem) (g : Nat) :
    Except PdfError (Pdf × OutlineItem × Nat) :=
  -- obj.Title = self.title
  let pdf := { pdf with heap := hupd pdf.heap g (fun d => { d with title := some item.title }) }
  match item.destination with
  | some dst =>
    match dst with
    | .page n =>
      -- resolve the raw page index via the destination builder
      match make_page_destination pdf n item.page_location item.page_location_kwargs with
      | .error e => .error e
      | .ok res =>
        let item := { item with destination := some (.val (.arr res)) }
        -- obj.Dest = self.destination; if Name.A in obj: del obj.A
        let pdf := { pdf with heap := hupd pdf.heap g (fun d => { d with dest := some (.arr res), a := none }) }
        .ok (pdf, item, g)
    | .val v =>
      let pdf := { pdf with heap := hupd pdf.heap g (fun d => { d with dest := some v, a := none }) }
      .ok (pdf, item, g)
  | none =>
    match item.action with
    | some act =>
      -- obj.A = self.action; if Name.Dest in obj: del obj.Dest
      let pdf := { pdf with heap := hupd pdf.heap g (fun d => { d with a := some act, dest := none }) }
      .ok (pdf, item, g)
    | none => .ok (pdf, item, g)

/-- `OutlineItem.to_dictionary_object(pdf, create_new)`: allocate a fresh
backing dictionary (`create_new` or no prior handle) or reuse the
remembered one, then write this item's managed fields via
`writeTitleDestA`. -/
def OutlineItem.to_dictionary_object (pdf : Pdf) (item : OutlineItem)
    (create_new : Bool := false) : Except PdfError (Pdf × OutlineItem × Nat) :=
  if create_new || item.obj.isNone then
    -- self.obj = obj = pdf.make_indirect(Dictionary())
    writeTitleDestA
      { pdf with heap := hupd pdf.heap pdf.nextId (fun _ => {}), nextId := pdf.nextId + 1 }
      { item with obj := some pdf.nextId } pdf.nextId
  else
    writeTitleDestA pdf item (item.obj.getD 0)

/-- Node count of an outline forest (termination measure). -/
def sizeL : List OutlineItem → Nat
  | [] => 0
  | i :: r => 1 + sizeL i.children + sizeL r
decreasing_by
  all_goals first
    | (obtain ⟨t, de, pl, kw, a, o, ic, ch⟩ := i; simp; try omega)
    | (simp; try omega)

/-- Result of the `_save_level_outline` loop: document, the (in-place
mutated) item list, the visited set, the running `count`, the trailing
`prev`/`first` locals, and the in-flight exception, if any. -/
structure SaveAcc where
  pdf : Pdf
  items : List OutlineItem
  visited : List Nat
  count : Int
  prev : Option Nat
  first : Option Nat
  err : Option PdfError

/-- Result of `Outline._save_level_outline`. -/
structure LevelRes where
  pdf : Pdf
  items : List OutlineItem
  visited : List Nat
  err : Option PdfError

mutual
/-- The `for item in outline_items` loop of `Outline._save_level_outline`,
with the loop locals (`count`, `prev`, `first`) as accumulator arguments.
An exception aborts the loop, carrying the state reached so far. -/
def save_items (strict : Bool) (maxD : Nat) (parent : Nat) (level : Nat)
    (items : List OutlineItem) (pdf : Pdf) (visited : List Nat)
    (count : Int) (prev : Option Nat) (first : Option Nat) : SaveAcc :=
  match items with
  | [] => ⟨pdf, [], visited, count, prev, first, none⟩
  | item :: rest =>
    match OutlineItem.to_dictionary_object pdf item false with
    | .error e => ⟨pdf, item :: rest, visited, count, prev, first, some e⟩
    | .ok (pdf1, item1, g1) =>
      -- objgen cycle check; `visited_objs.add` only on the non-duplicate path
      let step : Except SaveAcc (Pdf × OutlineItem × Nat × List Nat) :=
        if visited.contains g1 then
          if strict then
            .error ⟨pdf1, item1 :: rest, visited, count, prev, first,
                    some (.structureError g1)⟩
          else
            match OutlineItem.to_dictionary_object pdf1 item1 true with
            | .error e => .error ⟨pdf1, item1 :: rest, visited, count, prev, first, some e⟩
            | .ok (pdf2, item2, g2) => .ok (pdf2, item2, g2, visited)
        else .ok (pdf1, item1, g1, g1 :: visited)
      match step with
      | .error acc => acc
      | .ok (pdf2, item2, g2, visited2) =>
        -- out_obj.Parent = parent; count += 1
        let pdf3 := { pdf2 with heap := hupd pdf2.heap g2 (fun d => { d with parent := some parent }) }
        let count1 := count + 1
        -- sibling linkage; first sibling drops a stale Prev
        let st :=
          match prev with
          | some pg =>
            ({ pdf3 with heap := hupd (hupd pdf3.heap pg (fun d => { d with next := some g2 }))
                                    g2 (fun d => { d with prev := some pg }) }, first)
          | none =>
            ({ pdf3 with heap := hupd pdf3.heap g2 (fun d => { d with prev := none }) }, some g2)
        let pdf4 := st.1
        let first1 := st.2
        -- depth limit: children beyond max_depth are not saved
        let sub_items := if level < maxD then item.children else []
        let r := save_level strict maxD g2 (level + 1) sub_items pdf4 visited2
        let item3 := if level < maxD then { item2 with children := r.items } else item2
        match r.err with
        | some e => ⟨r.pdf, item3 :: rest, r.visited, count1, some g2, first1, some e⟩
        | none =>
          -- closed items get a negated Count; open counts accumulate
          let st2 :=
            if item.is_closed then
              ({ r.pdf with heap := hupd r.pdf.heap g2 (fun d => { d with count := some (-(d.count.getD 0)) }) }, count1)
            else
              (r.pdf, count1 + ((r.pdf.heap g2).count.getD 0))
          let tail := save_items strict maxD parent level rest st2.1 r.visited st2.2 (some g2) first1
          { tail with items := item3 :: tail.items }
termination_by (sizeL items, 0)
decreasing_by
  · apply Prod.Lex.left
    simp only [sizeL]
    split
    · omega
    · simp only [sizeL]; omega
  · apply Prod.Lex.left
    simp only [sizeL]
    omega

/-- `Outline._save_level_outline(parent, outline_items, level, visited_objs)`. -/
def save_level (strict : Bool) (maxD : Nat) (parent : Nat) (level : Nat)
    (outline_items : List OutlineItem) (pdf : Pdf) (visited : List Nat) : LevelRes :=
  let acc := save_items strict maxD parent level outline_items pdf visited 0 none none
  match acc.err with
  | some e => ⟨acc.pdf, acc.items, acc.visited, some e⟩
  | none =>
    if acc.count ≠ 0 then
      -- if Name.Next in prev: del prev.Next; parent.First = first; parent.Last = prev
      let pdf1 :=
        match acc.prev with
        | some pg => { acc.pdf with heap := hupd acc.pdf.heap pg (fun d => { d with next := none }) }
        | none => acc.pdf
      let pdf2 := { pdf1 with heap := hupd pdf1.heap parent (fun d => { d with first := acc.first, last := acc.prev }) }
      ⟨{ pdf2 with heap := hupd pdf2.heap parent (fun d => { d with count := some acc.count }) },
       acc.items, acc.visited, none⟩
    else
      -- empty level: drop stale First/Last
      let pdf1 := { acc.pdf with heap := hupd acc.pdf.heap parent (fun d => { d with first := none, last := none }) }
      ⟨{ pdf1 with heap := hupd pdf1.heap parent (fun d => { d with count := some acc.count }) },
       acc.items, acc.visited, none⟩
termination_by (sizeL outline_items, 1)
decreasing_by
  exact Prod.Lex.right _ (Nat.lt_succ_self 0)
end

/-- `Outline._load_level_outline(first_obj, outline_items, level, visited_objs)`,
the sibling-chain walk.  Returns `none` when the fuel runs out; otherwise the
list of loaded items appended so far, the visited set, and the in-flight
exception (items already appended survive a later exception because Python
appends into the caller-owned list). -/
def load_chain (strict : Bool) (maxD : Nat) (pdf : Pdf) :
    Nat → Nat → Nat → List Nat → Option (List OutlineItem × List Nat × Option PdfError)
  | 0, _, _, _ => none
  | fuel + 1, curId, level, visited =>
    if visited.contains curId then
      if strict then some ([], visited, some (.structureError curId))
      else some ([], visited, none)   -- lax: silently stop this chain
    else
      let visited1 := curId :: visited
      let d := pdf.heap curId
      match OutlineItem.from_dictionary_object curId d with
      | .error e => some ([], visited1, some e)
      | .ok item0 =>
        match d.first, decide (level < maxD) with
        | some fc, true =>
          -- recurse into the child chain, then read Count for the closed flag
          match load_chain strict maxD pdf fuel fc (level + 1) visited1 with
          | none => none
          | some (_, visited2, some e) => some ([], visited2, some e)
          | some (kids, visited2, none) =>
            -- `if count and count < 0: item.is_closed = True`
            let closedFlag : Bool :=
              match d.count with
              | some c => decide (c ≠ 0 ∧ c < 0)
              | none => false
            let item1 := { item0 with children := kids, is_closed := closedFlag }
            match d.next with
            | none => some ([item1], visited2, none)
            | some nx =>
              match load_chain strict maxD pdf fuel nx level visited2 with
              | none => none
              | some (rest, visited3, err) => some (item1 :: rest, visited3, err)
        | _, _ =>
          match d.next with
          | none => some ([item0], visited1, none)
          | some nx =>
            match load_chain strict maxD pdf fuel nx level visited1 with
            | none => none
            | some (rest, visited3, err) => some (item0 :: rest, visited3, err)

/-- `Outline` object state: bound document, cached root list (`None` until
first load), `max_depth`, `strict`, and the scoped-session flag. -/
structure Outline where
  pdfDoc : Pdf
  rootCache : Option (List OutlineItem)
  max_depth : Nat
  strict : Bool
  updating : Bool

/-- `Outline(pdf, max_depth=15, strict=False)`. -/
def Outline.init (pdf : Pdf) (max_depth : Nat := 15) (strict : Bool := false) : Outline :=
  ⟨pdf, none, max_depth, strict, false⟩

/-- `Outline._load`.  Sets `self._root` to a fresh list before traversal, so
on an exception the partially filled list remains cached.  Returns `none` on
fuel exhaustion, otherwise the updated outline and the in-flight error. -/
def Outline.loadRoot (fuel : Nat) (o : Outline) : Option (Outline × Option PdfError) :=
  let o1 := { o with rootCache := some [] }
  match o1.pdfDoc.rootOutlines with
  | none => some (o1, none)
  | some outId =>
    -- outlines = self._pdf.Root.Outlines or {}; first_obj = outlines.get(Name.First)
    match (o1.pdfDoc.heap outId).first with
    | none => some (o1, none)
    | some firstId =>
      match load_chain o1.strict o1.max_depth o1.pdfDoc fuel firstId 0 [] with
      | none => none
      | some (items, _, err) => some ({ o1 with rootCache := some items }, err)

/-- The `root` property: loads on first access, returns the cache after. -/
def Outline.rootP (fuel : Nat) (o : Outline) :
    Option (Outline × Except PdfError (List OutlineItem)) :=
  match o.rootCache with
  | some r => some (o, .ok r)
  | none =>
    match Outline.loadRoot fuel o with
    | none => none
    | some (o1, some e) => some (o1, .error e)
    | some (o1, none) => some (o1, .ok (o1.rootCache.getD []))

/-- `Outline._save`: no-op when the root was never loaded; otherwise ensure
the `/Outlines` container exists and rebuild from the root list.  Returns
the updated outline together with the in-flight error, if any. -/
def Outline.save (o : Outline) : Outline × Option PdfError :=
  match o.rootCache with
  | none => (o, none)
  | some root =>
    let st :=
      match o.pdfDoc.rootOutlines with
      | some od => (o.pdfDoc, od)
      | none =>
        let od := o.pdfDoc.nextId
        ({ o.pdfDoc with
           heap := hupd o.pdfDoc.heap od (fun _ => { typ := some "/Outlines" }),
           nextId := od + 1, rootOutlines := some od }, od)
    let r := save_level o.strict o.max_depth st.2 0 root st.1 []
    ({ o with pdfDoc := r.pdf, rootCache := some r.items }, r.err)

/-- `Outline.__enter__`. -/
def Outline.enter (o : Outline) : Outline := { o with updating := true }

/-- `Outline.__exit__(exc_type, ...)`: inside `try`, an in-flight body error
returns early (skipping `_save`); the `finally` clears `_updating` in every
case.  The returned `Nat` counts `_save` invocations; the returned error is
one raised by `_save` itself. -/
def Outline.onExit (o : Outline) (excPresent : Bool) : Outline × Option PdfError × Nat :=
  if excPresent then ({ o with updating := false }, none, 0)
  else
    let r := Outline.save o
    ({ r.1 with updating := false }, r.2, 1)

/-- The `with` statement around the outline: enter, run the body (which
returns its final state and whether it raised), exit.  Since the source's
`__exit__` returns `None`, a body error always propagates; an error raised
by `_save` inside `__exit__` propagates as well.  Components: final state,
whether an error propagates to the caller, number of `_save` calls. -/
def withOutline (o : Outline) (body : Outline → Outline × Bool) : Outline × Bool × Nat :=
  let o1 := Outline.enter o
  let b := body o1
  let e := Outline.onExit b.1 b.2
  (e.1, b.2 || e.2.1.isSome, e.2.2)

/-- `number_of_args(mode)`: arity of the location mode's argument list. -/
def number_of_args (l : PageLocation) : Nat :=
  ((PAGE_LOCATION_ARGS l).getD []).length

/-- Backing identity of the first item of a forest, if any. -/
def headObj : List OutlineItem → Option Nat
  | [] => none
  | i :: _ => i.obj

/-- Backing identity of the last item of a forest, if any. -/
def lastObj : List OutlineItem → Option Nat
  | [] => none
  | [i] => i.obj
  | _ :: r => lastObj r

/-- The value `_save_level_outline` stores into a level's parent `Count`:
one per sibling plus, for open items only, the count of their saved
(depth-truncated) children. -/
def levelCount (maxD level : Nat) : List OutlineItem → Int
  | [] => 0
  | i :: r =>
    1 + (if i.is_closed then 0
         else if level < maxD then levelCount maxD (level + 1) i.children else 0)
      + levelCount maxD level r
decreasing_by
  all_goals first
    | (obtain ⟨t, de, pl, kw, a, o, ic, ch⟩ := i; simp; try omega)
    | (simp; try omega)

/-- Backing identities of a forest in traversal (pre-)order, truncated at
the depth limit exactly as the traversals are. -/
def idsTr (maxD level : Nat) : List OutlineItem → List Nat
  | [] => []
  | i :: r =>
    i.obj.toList ++ (if level < maxD then idsTr maxD (level + 1) i.children else [])
      ++ idsTr maxD level r
decreasing_by
  all_goals first
    | (obtain ⟨t, de, pl, kw, a, o, ic, ch⟩ := i; simp; try omega)
    | (simp; try omega)

/-- Boolean disjointness of two identity lists. -/
def disjB (l v : List Nat) : Bool := l.all (fun x => !(v.contains x))

/-- `repChain h maxD level start F`: the heap `h` holds, starting at `start`,
a well-formed backing sibling chain whose loaded image is exactly the item
forest `F`: titles present and matching, `Dest`/`A` matching and mutually
exclusive, sibling linkage following `F`'s order, child chains matching the
items' children (below the depth limit), and the closed flag matching the
sign of the aggregate count.  Items carry their backing identity in `obj`. -/
def repChain (h : Heap) (maxD : Nat) : Nat → Option Nat → List OutlineItem → Bool
  | _, start, [] => start == none
  | level, start, i :: r =>
    match i.obj with
    | none => false
    | some g =>
      start == some g &&
      (h g).title == some i.title &&
      i.destination == (h g).dest.map ODest.val &&
      i.action == (h g).a &&
      !((h g).dest.isSome && (h g).a.isSome) &&
      i.page_location == none &&
      i.page_location_kwargs == [] &&
      (match (h g).first, decide (level < maxD) with
       | some fc, true =>
         repChain h maxD (level + 1) (some fc) i.children &&
         (i.is_closed == (match (h g).count with
                          | some c => decide (c ≠ 0 ∧ c < 0)
                          | none => false))
       | _, _ => i.children.isEmpty && i.is_closed == false) &&
      repChain h maxD level (h g).next r
decreasing_by
  all_goals first
    | (obtain ⟨t, de, pl, kw, a, o, ic, ch⟩ := i; simp; try omega)
    | (simp; try omega)

/-- `preChain h maxD level F`: the minimal well-formedness save needs —
every item down to the depth limit has an assigned backing identity, its
destination is resolved (never a raw page index), it does not carry both a
destination and an action, and when it carries neither its backing object
has no stale `Dest`/`A` either. -/
def preChain (h : Heap) (maxD : Nat) : Nat → List OutlineItem → Bool
  | _, [] => true
  | level, i :: r =>
    match i.obj with
    | none => false
    | some g =>
      (match i.destination, i.action with
       | some (.val _), none => true
       | none, some _ => true
       | none, none => (h g).dest == none && (h g).a == none
       | _, _ => false) &&
      (if level < maxD then preChain h maxD (level + 1) i.children else true) &&
      preChain h maxD level r
decreasing_by
  all_goals first
    | (obtain ⟨t, de, pl, kw, a, o, ic, ch⟩ := i; simp; try omega)
    | (simp; try omega)

/-- The `Dest` value of a reused backing object after
`to_dictionary_object` (destination already resolved). -/
def destAfter (pre : DictObj) (i : OutlineItem) : Option PdfVal :=
  match i.destination, i.action with
  | some (.val v), _ => some v
  | some (.page _), _ => pre.dest
  | none, some _ => none
  | none, none => pre.dest

/-- The `A` value of a reused backing object after `to_dictionary_object`. -/
def aAfter (pre : DictObj) (i : OutlineItem) : Option PdfVal :=
  match i.destination, i.action with
  | some _, _ => none
  | none, some act => some act
  | none, none => pre.a

/-- Final value of one outline node's backing dictionary after a save. -/
def nodeAfter (pre : DictObj) (i : OutlineItem) (p : Nat)
    (prevId nextId firstKid lastKid : Option Nat) (cnt : Int) : DictObj :=
  { typ := pre.typ,
    title := some i.title,
    dest := destAfter pre i,
    a := aAfter pre i,
    first := firstKid, last := lastKid,
    next := nextId, prev := prevId,
    parent := some p,
    count := some (if i.is_closed then -cnt else cnt) }

/-- `nodesW pre post maxD level p prevId lastNext F`: in the post-save heap
every node of `F` (down to the depth limit) holds exactly its saved value:
sibling/parent linkage per `F`'s order (the level's last sibling's `Next`
being `lastNext`), child linkage and signed counts per `nodeAfter`. -/
def nextOf (r : List OutlineItem) (lastNext : Option Nat) : Option Nat :=
  match r with
  | [] => lastNext
  | j :: _ => j.obj

def nodesW (pre post : Heap) (maxD : Nat) :
    Nat → Nat → Option Nat → Option Nat → List OutlineItem → Prop
  | _, _, _, _, [] => True
  | level, p, prevId, lastNext, i :: r =>
    ∃ g, i.obj = some g ∧
      post g = nodeAfter (pre g) i p prevId (nextOf r lastNext)
        (headObj (if level < maxD then i.children else []))
        (lastObj (if level < maxD then i.children else []))
        (levelCount maxD (level + 1) (if level < maxD then i.children else []))
      ∧ nodesW pre post maxD (level + 1) g none none
          (if level < maxD then i.children else [])
      ∧ nodesW pre post maxD level p (some g) lastNext r
termination_by level p prevId lastNext F => sizeL F
decreasing_by
  all_goals (simp only [sizeL]; try split) <;> (try simp only [sizeL]) <;> omega

/-- `Next` of the last sibling as left by the loop body (deleted only by
the level epilogue afterwards): its pre-save value. -/
def lastNextVal (pre : Heap) (F : List OutlineItem) : Option Nat :=
  match lastObj F with
  | some g => (pre g).next
  | none => none

/-- Backing `Count` fields after save: `-k` on closed items, `k` on open
ones, where `k` counts the item's saved visible descendants. -/
def countsOK (h : Heap) (maxD : Nat) : Nat → List OutlineItem → Bool
  | _, [] => true
  | level, i :: r =>
    match i.obj with
    | none => false
    | some g =>
      (h g).count == some
        (if i.is_closed
         then -(levelCount maxD (level + 1) (if level < maxD then i.children else []))
         else levelCount maxD (level + 1) (if level < maxD then i.children else [])) &&
      (if level < maxD then countsOK h maxD (level + 1) i.children else true) &&
      countsOK h maxD level r
decreasing_by
  all_goals first
    | (obtain ⟨t, de, pl, kw, a, o, ic, ch⟩ := i; simp; try omega)
    | (simp; try omega)

/-- After save, items sitting at the depth limit carry no child linkage. -/
def truncSaved (h : Heap) (maxD : Nat) : Nat → List OutlineItem → Bool
  | _, [] => true
  | level, i :: r =>
    match i.obj with
    | none => false
    | some g =>
      (if level < maxD then truncSaved h maxD (level + 1) i.children
       else ((h g).first == none && (h g).last == none)) &&
      truncSaved h maxD level r
decreasing_by
  all_goals first
    | (obtain ⟨t, de, pl, kw, a, o, ic, ch⟩ := i; simp; try omega)
    | (simp; try omega)

/-- Forest nesting depth bound: `depthLeB k F` holds when no item sits at
nesting level `k` or beyond (root items are at level `0`). -/
def depthLeB : Nat → List OutlineItem → Bool
  | _, [] => true
  | k, i :: r =>
    (match k with
     | 0 => false
     | k' + 1 => depthLeB k' i.children) && depthLeB k r
termination_by k F => sizeL F
decreasing_by
  all_goals (simp only [sizeL]; try split) <;> (try simp only [sizeL]) <;> omega

/-- The item loaded from a flat (childless) backing node. -/
def flatItem (h : Heap) (g : Nat) : OutlineItem :=
  { title := ((h g).title).getD "",
    destination := (h g).dest.map ODest.val,
    page_location := none, page_location_kwargs := [],
    action := (h g).a, obj := some g,
    is_closed := false, children := [] }

/-- `chainB h gs after`: `gs` is a consecutive flat sibling chain in `h`
(titles present, no children), the last node's `Next` being `after`. -/
def chainB (h : Heap) : List Nat → Option Nat → Bool
  | [], _ => true
  | g :: rest, after =>
    (h g).title.isSome && (h g).first == none &&
    (h g).next == (match rest with | g' :: _ => some g' | [] => after) &&
    chainB h rest after

/-- `D` covers the traversal: every `Next`/`First` reference of a node in
`D` stays in `D`. -/
def coverB (pdf : Pdf) (D : List Nat) : Bool :=
  D.all (fun g =>
    (match (pdf.heap g).next with | some nx => D.contains nx | none => true) &&
    (match (pdf.heap g).first with | some fc => D.contains fc | none => true))

/-! Concrete example documents and items used to instantiate the theorems
below on executable inputs. -/

/-- Example document: one page, empty heap, no outlines yet. -/
def c6pdf : Pdf := ⟨1, fun _ => {}, 5, none⟩

/-- Example item with a resolved jump-target and a backing object. -/
def c6item : OutlineItem :=
  { title := "T", destination := some (.val (.raw "d")), page_location := none,
    page_location_kwargs := [], action := none, obj := some 2,
    is_closed := false, children := [] }

/-- The document after writing `c6item` to its backing object. -/
def c6post : Pdf :=
  pdfUpd (pdfUpd c6pdf 2 (fun d => { d with title := some "T" })) 2
    (fun d => { d with dest := some (PdfVal.raw "d"), a := none })

/-- Example document whose object `2` holds stale `Dest`/`A` content. -/
def c10pdf : Pdf :=
  ⟨1, fun g => if g = 2 then { dest := some (.raw "old"), a := some (.raw "oldact"), title := some "Old" } else {},
   5, none⟩

/-- Example item with neither jump-target nor action, reusing object `2`. -/
def c10item : OutlineItem :=
  { title := "New", destination := none, page_location := none, page_location_kwargs := [],
    action := none, obj := some 2, is_closed := false, children := [] }

/-- Example document with three pages for destination resolution. -/
def c9pdf : Pdf := ⟨3, fun _ => {}, 5, none⟩

/-- Example item holding an unresolved page-index jump-target. -/
def c9item : OutlineItem :=
  { title := "J", destination := some (.page 1), page_location := some (.loc .FitH),
    page_location_kwargs := [("top", 11)], action := none, obj := some 4,
    is_closed := false, children := [] }

/-- The descriptor `c9item` resolves to. -/
def c9res : List PdfAtom := [.pageRef 1, .pname "/FitH", .num 11]

/-- `c9item` after its destination got resolved by the first write. -/
def c9resolved : OutlineItem := { c9item with destination := some (.val (.arr c9res)) }

/-- The document after the first write of `c9item`. -/
def c9post : Pdf :=
  pdfUpd (pdfUpd c9pdf 4 (fun d => { d with title := some "J" })) 4
    (fun d => { d with dest := some (PdfVal.arr c9res), a := none })

/-- Cyclic two-node sibling chain: the outline container `10` points at
node `1`, whose `Next` is `2`, whose `Next` loops back to `1`. -/
def c3heap : Heap := fun g =>
  if g = 10 then { first := some 1 }
  else if g = 1 then { title := some "A", next := some 2 }
  else if g = 2 then { title := some "B", next := some 1 }
  else {}

/-- Document around `c3heap`. -/
def c3pdf : Pdf := ⟨1, c3heap, 100, some 10⟩

/-- Strict-mode outline over the cyclic document. -/
def c3o : Outline := Outline.init c3pdf 15 true

/-- The two items emitted before the cycle is detected. -/
def c3items : List OutlineItem := [flatItem c3heap 1, flatItem c3heap 2]

/-- Number of identities of `D` not yet visited (termination bound). -/
def unvisited (D visited : List Nat) : Nat :=
  (D.filter (fun x => !(decide (x ∈ visited)))).length

/-- The heap after the per-item writes of the save loop body that precede
the child recursion: the `to_dictionary_object` fields, `Parent`, the
`Prev` link (set or deleted), and the previous sibling's `Next`. -/
def heap4 (h : Heap) (item : OutlineItem) (parent g : Nat) (prev : Option Nat) : Heap :=
  let h1 := hupd h g (fun d =>
    { d with title := some item.title, dest := destAfter d item,
             a := aAfter d item, parent := some parent, prev := prev })
  match prev with
  | some pg => hupd h1 pg (fun d => { d with next := some g })
  | none => h1

/-- `prev` tracker after a level's loop: the last sibling's identity, or
the incoming value when the level is empty. -/
def lastOr (F : List OutlineItem) (prev : Option Nat) : Option Nat :=
  match F with
  | [] => prev
  | _ :: _ => lastObj F

/-- `first` tracker after a level's loop: the first sibling's identity when
none was recorded yet, otherwise unchanged. -/
def firstUpd (prev : Option Nat) (F : List OutlineItem) (first : Option Nat) :
    Option Nat :=
  match prev, F with
  | none, i :: _ => i.obj
  | _, _ => first

/-- The already-emitted previous sibling's dictionary after the loop: its
`Next` points at the level's first new node (untouched for an empty level). -/
def prevAfter (h : Heap) (pg : Nat) (F : List OutlineItem) : DictObj :=
  match F with
  | [] => h pg
  | _ :: _ => { h pg with next := headObj F }

/-- Everything `_save_level_outline`'s loop guarantees on a well-formed,
duplicate-free level: no error, items returned unchanged, visited extended
by the traversal ids, the count accumulated per `levelCount`, `prev`/`first`
tracking the level's last/first ids, untouched objects framed, the previous
sibling relinked, every node holding its `nodeAfter` value, and document
metadata preserved. -/
def SaveItemsSpec (strict : Bool) (maxD parent level : Nat) (F : List OutlineItem)
    (pdf : Pdf) (visited : List Nat) (count : Int) (prev first : Option Nat) : Prop :=
  let acc := save_items strict maxD parent level F pdf visited count prev first
  acc.err = none ∧
  acc.items = F ∧
  acc.visited = (idsTr maxD level F).reverse ++ visited ∧
  acc.count = count + levelCount maxD level F ∧
  acc.prev = lastOr F prev ∧
  acc.first = firstUpd prev F first ∧
  (∀ x, x ∉ idsTr maxD level F → (∀ pg, prev = some pg → x ≠ pg) →
    acc.pdf.heap x = pdf.heap x) ∧
  (∀ pg, prev = some pg → acc.pdf.heap pg = prevAfter pdf.heap pg F) ∧
  nodesW pdf.heap acc.pdf.heap maxD level parent prev (lastNextVal pdf.heap F) F ∧
  acc.pdf.nextId = pdf.nextId ∧ acc.pdf.numPages = pdf.numPages ∧
  acc.pdf.rootOutlines = pdf.rootOutlines

/-- The document state after the closed-item `Count` negation step of the
save loop body (the open branch leaves the document unchanged). -/
def pdf5Of (lr : LevelRes) (g : Nat) (closed : Bool) : Pdf :=
  if closed then
    { lr.pdf with heap := hupd lr.pdf.heap g (fun d => { d with count := some (-(d.count.getD 0)) }) }
  else lr.pdf

/-- The count accumulator after one loop iteration: `1` for the item plus,
when it is open, its saved subtree count. -/
def count2Of (lr : LevelRes) (g : Nat) (closed : Bool) (count : Int) : Int :=
  if closed then count + 1 else count + 1 + ((lr.pdf.heap g).count.getD 0)

/-- Everything `_save_level_outline` guarantees on a well-formed,
duplicate-free level: the loop's guarantees plus the epilogue's parent
`First`/`Last`/`Count` and the deletion of the last sibling's `Next`. -/
def SaveLevelSpec (strict : Bool) (maxD parent level : Nat) (F : List OutlineItem)
    (pdf : Pdf) (visited : List Nat) : Prop :=
  let r := save_level strict maxD parent level F pdf visited
  r.err = none ∧
  r.items = F ∧
  r.visited = (idsTr maxD level F).reverse ++ visited ∧
  (∀ x, x ∉ idsTr maxD level F → x ≠ parent → r.pdf.heap x = pdf.heap x) ∧
  r.pdf.heap parent = { pdf.heap parent with first := headObj F, last := lastObj F, count := some (levelCount maxD level F) } ∧
  nodesW pdf.heap r.pdf.heap maxD level parent none none F ∧
  r.pdf.nextId = pdf.nextId ∧ r.pdf.numPages = pdf.numPages ∧
  r.pdf.rootOutlines = pdf.rootOutlines

/-- The image of an outline forest after one save/load round trip: children
at or beyond the depth limit are dropped, childless items come back open,
and the page-location hints (consumed at save time) come back empty. -/
def truncF (maxD : Nat) : Nat → List OutlineItem → List OutlineItem
  | _, [] => []
  | level, i :: r =>
    (if level < maxD then
      { i with children := truncF maxD (level + 1) i.children,
               is_closed := if i.children.isEmpty then false else i.is_closed,
               page_location := none, page_location_kwargs := [] }
     else
      { i with children := [], is_closed := false,
               page_location := none, page_location_kwargs := [] })
    :: truncF maxD level r
decreasing_by
  all_goals first
    | (obtain ⟨t, de, pl, kw, a, o, ic, ch⟩ := i; simp; try omega)
    | (simp; try omega)

/-- A three-node backing outline: container `10` points at `1` (\"A\", one
child `3` \"K\", aggregate count `1`), whose `Next` is `2` (\"B\"). -/
def c1heap : Heap := fun g =>
  if g = 10 then { typ := some "/Outlines", first := some 1 }
  else if g = 1 then { title := some "A", first := some 3, count := some 1, next := some 2 }
  else if g = 3 then { title := some "K" }
  else if g = 2 then { title := some "B" }
  else {}

/-- The document around `c1heap`. -/
def c1pdf : Pdf := { numPages := 5, heap := c1heap, nextId := 20, rootOutlines := some 10 }

/-- The item forest `c1heap` represents. -/
def c1items : List OutlineItem :=
  [ { title := "A", destination := none, page_location := none, page_location_kwargs := [],
      action := none, obj := some 1, is_closed := false,
      children := [ { title := "K", destination := none, page_location := none,
                      page_location_kwargs := [], action := none, obj := some 3,
                      is_closed := false, children := [] } ] },
    { title := "B", destination := none, page_location := none, page_location_kwargs := [],
      action := none, obj := some 2, is_closed := false, children := [] } ]

theorem hupd_same (h : Heap) (g : Nat) (f : DictObj → DictObj) : hupd h g f g = f (h g) := by
  simp [hupd]

theorem hupd_other (h : Heap) (g x : Nat) (f : DictObj → DictObj) (hx : x ≠ g) :
    hupd h g f x = h x := by
  simp [hupd, hx]

/-- C5: for every valid mode (as an enum value or a recognized string) and
every kwargs map, `make_page_destination` returns the descriptor
`[page-reference, mode-tag] ++ args` with the trailing arguments equal to
`kwargs.get(name, 0)` in the fixed per-mode order, hence of length
`2 + number_of_args(mode)`; with the mode omitted it returns
`[page-reference, Fit-tag]`. -/
theorem claim_C5_make_page_destination (pdf : Pdf) (page_num : Nat) (kwargs : Kwargs)
    (l : PageLocation) (hn : page_num < pdf.numPages) :
    (make_page_destination pdf page_num (some (.loc l)) kwargs =
      .ok ([PdfAtom.pageRef page_num, PdfAtom.pname ("/" ++ l.pname)] ++
        ((PAGE_LOCATION_ARGS l).getD []).map (fun k => PdfAtom.num (kwget kwargs k)))) ∧
    (∀ xs, make_page_destination pdf page_num (some (.loc l)) kwargs = .ok xs →
      xs.length = 2 + number_of_args l) ∧
    (make_page_destination pdf page_num none kwargs =
      .ok [PdfAtom.pageRef page_num, PdfAtom.pname "/Fit"]) ∧
    (∀ s, pageLocationOfString s = some l →
      make_page_destination pdf page_num (some (.str s)) kwargs =
        .ok ([PdfAtom.pageRef page_num, PdfAtom.pname ("/" ++ s)] ++
          ((PAGE_LOCATION_ARGS l).getD []).map (fun k => PdfAtom.num (kwget kwargs k)))) := by
  have hmain : make_page_destination pdf page_num (some (.loc l)) kwargs =
      .ok ([PdfAtom.pageRef page_num, PdfAtom.pname ("/" ++ l.pname)] ++
        ((PAGE_LOCATION_ARGS l).getD []).map (fun k => PdfAtom.num (kwget kwargs k))) := by
    cases l <;> simp [make_page_destination, hn, PageLocSpec.truthy, PAGE_LOCATION_ARGS,
      PageLocation.pname]
  refine ⟨hmain, ?_, ?_, ?_⟩
  · intro xs hxs
    rw [hmain] at hxs
    cases hxs
    simp [number_of_args]
    omega
  · simp [make_page_destination, hn]
  · intro s hs
    have hs' : s ≠ "" := by
      intro he
      rw [he] at hs
      simp [pageLocationOfString] at hs
    cases l <;>
      simp [make_page_destination, hn, PageLocSpec.truthy, hs', hs, PAGE_LOCATION_ARGS]

theorem claim_C5_witness :
    (3 : Nat) < (5 : Nat) ∧
    make_page_destination ⟨5, fun _ => {}, 0, none⟩ 3 (some (.loc .XYZ)) [("top", 100), ("zoom", 2)] =
      .ok [PdfAtom.pageRef 3, PdfAtom.pname "/XYZ", PdfAtom.num 0, PdfAtom.num 100, PdfAtom.num 2] :=
  ⟨by decide,
   by
    have h := (claim_C5_make_page_destination ⟨5, fun _ => {}, 0, none⟩ 3
      [("top", 100), ("zoom", 2)] .XYZ (by decide)).1
    rw [h]
    rfl⟩

theorem make_page_destination_congr (p1 p2 : Pdf) (n : Nat) (pl : Option PageLocSpec)
    (kw : Kwargs) (hnum : p1.numPages = p2.numPages) :
    make_page_destination p1 n pl kw = make_page_destination p2 n pl kw := by
  simp only [make_page_destination, hnum]


theorem hupd_hupd (h : Heap) (g : Nat) (f1 f2 : DictObj → DictObj) :
    hupd (hupd h g f1) g f2 = hupd h g (fun d => f2 (f1 d)) := by
  funext x
  by_cases hx : x = g <;> simp [hupd, hx]


theorem writeTitleDestA_val (pdf : Pdf) (item : OutlineItem) (g : Nat) (v : PdfVal)
    (hd : item.destination = some (.val v)) :
    writeTitleDestA pdf item g =
      .ok (pdfUpd pdf g (fun d => { d with title := some item.title, dest := some v, a := none }), item, g) := by
  simp only [writeTitleDestA, hd, pdfUpd]
  rw [hupd_hupd]

theorem writeTitleDestA_act (pdf : Pdf) (item : OutlineItem) (g : Nat) (act : PdfVal)
    (hd : item.destination = none) (ha : item.action = some act) :
    writeTitleDestA pdf item g =
      .ok (pdfUpd pdf g (fun d => { d with title := some item.title, a := some act, dest := none }), item, g) := by
  simp only [writeTitleDestA, hd, ha, pdfUpd]
  rw [hupd_hupd]

theorem writeTitleDestA_none (pdf : Pdf) (item : OutlineItem) (g : Nat)
    (hd : item.destination = none) (ha : item.action = none) :
    writeTitleDestA pdf item g =
      .ok (pdfUpd pdf g (fun d => { d with title := some item.title }), item, g) := by
  simp only [writeTitleDestA, hd, ha, pdfUpd]

theorem writeTitleDestA_page (pdf : Pdf) (item : OutlineItem) (g : Nat) (n : Nat)
    (hd : item.destination = some (.page n)) :
    writeTitleDestA pdf item g =
      match make_page_destination pdf n item.page_location item.page_location_kwargs with
      | .error e => .error e
      | .ok res =>
        .ok (pdfUpd pdf g (fun d => { d with title := some item.title, dest := some (.arr res), a := none }),
             { item with destination := some (.val (.arr res)) }, g) := by
  simp only [writeTitleDestA, hd]
  have hcg := make_page_destination_congr
    { pdf with heap := hupd pdf.heap g (fun d => { d with title := some item.title }) }
    pdf n item.page_location item.page_location_kwargs rfl
  rw [hcg]
  cases make_page_destination pdf n item.page_location item.page_location_kwargs with
  | error e => rfl
  | ok res =>
    simp only [pdfUpd]
    rw [hupd_hupd]

theorem toDict_reuse (pdf : Pdf) (item : OutlineItem) (g : Nat) (hobj : item.obj = some g) :
    OutlineItem.to_dictionary_object pdf item false = writeTitleDestA pdf item g := by
  simp [OutlineItem.to_dictionary_object, hobj]

theorem writeTitleDestA_exclusive (pdf pdf' : Pdf) (item item' : OutlineItem) (g g' : Nat)
    (h : writeTitleDestA pdf item g = .ok (pdf', item', g')) :
    g' = g ∧
    (item.destination.isSome = true →
      (pdf'.heap g).dest.isSome = true ∧ (pdf'.heap g).a = none) ∧
    (item.destination = none → ∀ act, item.action = some act →
      (pdf'.heap g).a = some act ∧ (pdf'.heap g).dest = none) := by
  cases hd : item.destination with
  | some dst =>
    cases dst with
    | page n =>
      rw [writeTitleDestA_page pdf item g n hd] at h
      split at h
      · simp at h
      · simp only [Except.ok.injEq, Prod.mk.injEq] at h
        obtain ⟨hp, _, hg⟩ := h
        subst hp
        subst hg
        refine ⟨rfl, fun _ => ?_, fun hc => ?_⟩
        · simp [pdfUpd, hupd_same]
        · exact absurd hc (by simp [hd])
    | val v =>
      rw [writeTitleDestA_val pdf item g v hd] at h
      simp only [Except.ok.injEq, Prod.mk.injEq] at h
      obtain ⟨hp, _, hg⟩ := h
      subst hp
      subst hg
      refine ⟨rfl, fun _ => ?_, fun hc => ?_⟩
      · simp [pdfUpd, hupd_same]
      · exact absurd hc (by simp [hd])
  | none =>
    cases ha : item.action with
    | some act =>
      rw [writeTitleDestA_act pdf item g act hd ha] at h
      simp only [Except.ok.injEq, Prod.mk.injEq] at h
      obtain ⟨hp, _, hg⟩ := h
      subst hp
      subst hg
      refine ⟨rfl, fun hs => ?_, fun _ act' ha' => ?_⟩
      · simp at hs
      · cases ha'
        simp [pdfUpd, hupd_same]
    | none =>
      rw [writeTitleDestA_none pdf item g hd ha] at h
      simp only [Except.ok.injEq, Prod.mk.injEq] at h
      obtain ⟨hp, _, hg⟩ := h
      subst hp
      subst hg
      refine ⟨rfl, fun hs => ?_, fun _ act' ha' => ?_⟩
      · simp at hs
      · exact absurd ha' (by simp [ha])

/-- C6: writing an item to its backing object enforces target/action
exclusivity: if the jump-target is set the written object has `Dest` set
and `A` removed; otherwise, if the action is set, the written object has
`A` set and `Dest` removed. -/
theorem claim_C6_exclusive (pdf pdf' : Pdf) (item item' : OutlineItem) (cn : Bool) (g : Nat)
    (h : OutlineItem.to_dictionary_object pdf item cn = .ok (pdf', item', g)) :
    (item.destination.isSome = true →
      (pdf'.heap g).dest.isSome = true ∧ (pdf'.heap g).a = none) ∧
    (item.destination = none → ∀ act, item.action = some act →
      (pdf'.heap g).a = some act ∧ (pdf'.heap g).dest = none) := by
  by_cases halloc : (cn || item.obj.isNone) = true
  · simp only [OutlineItem.to_dictionary_object, halloc, if_pos] at h
    have hx := writeTitleDestA_exclusive _ pdf' _ item' _ g h
    obtain ⟨hg, h1, h2⟩ := hx
    subst hg
    exact ⟨h1, h2⟩
  · simp only [OutlineItem.to_dictionary_object, halloc, if_neg, Bool.false_eq_true] at h
    have hx := writeTitleDestA_exclusive _ pdf' _ item' _ g h
    obtain ⟨hg, h1, h2⟩ := hx
    subst hg
    exact ⟨h1, h2⟩

theorem claim_C6_witness :
    (c6post.heap 2).dest.isSome = true ∧ (c6post.heap 2).a = none :=
  (claim_C6_exclusive c6pdf c6post c6item c6item false 2 (by rfl)).1 (by rfl)

/-- C10: when an item has neither jump-target nor action, writing it to a
reused backing object overwrites only the title; the backing object's
pre-existing (stale) `Dest` and `A` fields, all its other fields, and every
other object are left untouched. -/
theorem claim_C10_frame (pdf pdf' : Pdf) (item item' : OutlineItem) (g g' : Nat)
    (hobj : item.obj = some g) (hd : item.destination = none) (ha : item.action = none)
    (h : OutlineItem.to_dictionary_object pdf item false = .ok (pdf', item', g')) :
    g' = g ∧ item' = item ∧
    pdf' = pdfUpd pdf g (fun d => { d with title := some item.title }) ∧
    (pdf'.heap g).dest = (pdf.heap g).dest ∧
    (pdf'.heap g).a = (pdf.heap g).a ∧
    (∀ x, x ≠ g → pdf'.heap x = pdf.heap x) ∧
    pdf'.numPages = pdf.numPages ∧ pdf'.nextId = pdf.nextId ∧
    pdf'.rootOutlines = pdf.rootOutlines := by
  rw [toDict_reuse pdf item g hobj, writeTitleDestA_none pdf item g hd ha] at h
  simp only [Except.ok.injEq, Prod.mk.injEq] at h
  obtain ⟨hp, hi, hg⟩ := h
  subst hp
  subst hg
  refine ⟨rfl, hi.symm, rfl, ?_, ?_, ?_, rfl, rfl, rfl⟩
  · simp [pdfUpd, hupd_same]
  · simp [pdfUpd, hupd_same]
  · intro x hx
    simp [pdfUpd, hupd_other _ _ _ _ hx]

theorem claim_C10_witness :
    ((pdfUpd c10pdf 2 (fun d => { d with title := some c10item.title })).heap 2).dest =
      (c10pdf.heap 2).dest ∧
    ((pdfUpd c10pdf 2 (fun d => { d with title := some c10item.title })).heap 2).a =
      (c10pdf.heap 2).a ∧
    (c10pdf.heap 2).dest = some (PdfVal.raw "old") ∧
    (c10pdf.heap 2).a = some (PdfVal.raw "oldact") :=
  ⟨((claim_C10_frame c10pdf _ c10item c10item 2 2 (by rfl) (by rfl) (by rfl)
      (by rfl)).2.2.2.1),
   ((claim_C10_frame c10pdf _ c10item c10item 2 2 (by rfl) (by rfl) (by rfl)
      (by rfl)).2.2.2.2.1),
   by rfl, by rfl⟩

/-- C9: a raw page-index jump-target is resolved to the backing descriptor
as a one-time, idempotent side effect of the first write: afterwards the
item stores the resolved descriptor, and every subsequent write (with any
location mode or kwargs — the builder is not consulted again) reuses it
and writes the same descriptor. -/
theorem claim_C9_one_time (pdf pdf1 : Pdf) (item item1 : OutlineItem) (cn : Bool)
    (n g : Nat) (res : List PdfAtom)
    (hd : item.destination = some (.page n))
    (hres : make_page_destination pdf n item.page_location item.page_location_kwargs = .ok res)
    (h : OutlineItem.to_dictionary_object pdf item cn = .ok (pdf1, item1, g)) :
    item1.destination = some (.val (.arr res)) ∧
    (pdf1.heap g).dest = some (.arr res) ∧
    item1.obj = some g ∧
    (∀ pl kw pdf2 item2 g2,
      OutlineItem.to_dictionary_object pdf1
          { item1 with page_location := pl, page_location_kwargs := kw } false
        = .ok (pdf2, item2, g2) →
      g2 = g ∧ item2.destination = item1.destination ∧
        (pdf2.heap g).dest = some (.arr res)) ∧
    (OutlineItem.to_dictionary_object pdf1 item1 false =
      .ok (pdfUpd pdf1 g (fun d => { d with title := some item1.title, dest := some (.arr res), a := none }),
           item1, g)) := by
  have hfirst : item1 = { (if (cn || item.obj.isNone) = true
        then { item with obj := some pdf.nextId } else item) with
        destination := some (.val (.arr res)) } ∧
      (pdf1.heap g).dest = some (.arr res) ∧ item1.obj = some g := by
    by_cases halloc : (cn || item.obj.isNone) = true
    · simp only [OutlineItem.to_dictionary_object, halloc, if_pos] at h
      rw [writeTitleDestA_page _ _ _ n (by simp [hd])] at h
      dsimp only at h
      have hcg := make_page_destination_congr
        { pdf with heap := hupd pdf.heap pdf.nextId (fun _ => {}), nextId := pdf.nextId + 1 }
        pdf n item.page_location item.page_location_kwargs rfl
      rw [hcg] at h
      rw [hres] at h
      simp only [Except.ok.injEq, Prod.mk.injEq] at h
      obtain ⟨hp, hi, hg⟩ := h
      subst hp
      subst hg
      refine ⟨?_, by simp [pdfUpd, hupd_same], by rw [← hi]⟩
      rw [← hi]
      simp [halloc]
    · simp only [OutlineItem.to_dictionary_object, halloc, if_false, Bool.false_eq_true] at h
      rw [writeTitleDestA_page _ _ _ n hd] at h
      rw [hres] at h
      simp only [Except.ok.injEq, Prod.mk.injEq] at h
      obtain ⟨hp, hi, hg⟩ := h
      subst hp
      subst hg
      have hobj : item.obj = some (item.obj.getD 0) := by
        cases ho : item.obj with
        | none => rw [ho] at halloc; simp at halloc
        | some x => simp [ho]
      refine ⟨?_, by simp [pdfUpd, hupd_same], ?_⟩
      · rw [← hi]
        simp [halloc]
      · rw [← hi]
        simp
        exact hobj
  obtain ⟨hi1, hdest1, hobj1⟩ := hfirst
  have hd1 : item1.destination = some (.val (.arr res)) := by
    rw [hi1]
  refine ⟨hd1, hdest1, hobj1, ?_, ?_⟩
  · intro pl kw pdf2 item2 g2 h2
    rw [toDict_reuse _ _ g (by simp [hobj1]),
      writeTitleDestA_val _ _ g (.arr res) (by simp [hd1])] at h2
    simp only [Except.ok.injEq, Prod.mk.injEq] at h2
    obtain ⟨hp2, hi2, hg2⟩ := h2
    subst hp2
    subst hg2
    refine ⟨rfl, ?_, by simp [pdfUpd, hupd_same]⟩
    rw [← hi2]
  · rw [toDict_reuse _ _ g hobj1, writeTitleDestA_val _ _ g (.arr res) hd1]

theorem claim_C9_witness :
    c9resolved.destination = some (.val (.arr c9res)) ∧
    (c9post.heap 4).dest = some (.arr c9res) ∧
    c9resolved.obj = some 4 ∧
    OutlineItem.to_dictionary_object c9post c9resolved false =
      .ok (pdfUpd c9post 4
             (fun d => { d with title := some c9resolved.title, dest := some (.arr c9res), a := none }),
           c9resolved, 4) :=
  have H := claim_C9_one_time c9pdf c9post c9item c9resolved false 1 4 c9res
    (by rfl) (by rfl) (by rfl)
  ⟨H.1, H.2.1, H.2.2.1, H.2.2.2.2⟩

/-- C7: the scoped edit session triggers `_save` exactly once on a clean
exit (an error raised by `_save` itself still propagates); a body error
suppresses the flush but still propagates; and the `_updating` flag is
cleared on exit in every case. -/
theorem claim_C7_session (o : Outline) (body : Outline → Outline × Bool) :
    (∀ o2, body (Outline.enter o) = (o2, false) →
      withOutline o body =
        ({ (Outline.save o2).1 with updating := false },
         (Outline.save o2).2.isSome, 1)) ∧
    (∀ o2, body (Outline.enter o) = (o2, true) →
      withOutline o body = ({ o2 with updating := false }, true, 0)) ∧
    (withOutline o body).1.updating = false := by
  refine ⟨?_, ?_, ?_⟩
  · intro o2 hb
    simp [withOutline, hb, Outline.onExit]
  · intro o2 hb
    simp [withOutline, hb, Outline.onExit]
  · rcases hb : body (Outline.enter o) with ⟨o2, raised⟩
    cases raised <;> simp [withOutline, hb, Outline.onExit]

theorem claim_C7_witness :
    withOutline (Outline.init c6pdf) (fun x => (x, false)) =
      ({ (Outline.save (Outline.enter (Outline.init c6pdf))).1 with updating := false },
       (Outline.save (Outline.enter (Outline.init c6pdf))).2.isSome, 1) :=
  (claim_C7_session (Outline.init c6pdf) (fun x => (x, false))).1 _ rfl

theorem claim_C3_counterexample :
    Outline.rootP 10 c3o =
      some ({ c3o with rootCache := some c3items }, .error (.structureError 1)) ∧
    Outline.rootP 10 { c3o with rootCache := some c3items } =
      some ({ c3o with rootCache := some c3items }, .ok c3items) ∧
    c3items ≠ [] := by
  refine ⟨rfl, rfl, by simp [c3items]⟩

theorem disjB_iff (l v : List Nat) : disjB l v = true ↔ ∀ x ∈ l, x ∉ v := by
  simp [disjB, List.all_eq_true, List.elem_iff]

theorem load_chain_flat (strict : Bool) (maxD : Nat) (pdf : Pdf) (level : Nat) (t : Nat) :
    ∀ (gs : List Nat) (g : Nat) (visited : List Nat) (fuel : Nat),
      chainB pdf.heap (g :: gs) (some t) = true →
      (g :: gs).Nodup →
      disjB (g :: gs) visited = true →
      (t ∈ (g :: gs) ∨ t ∈ visited) →
      (g :: gs).length + 1 ≤ fuel →
      load_chain strict maxD pdf fuel g level visited =
        some ((g :: gs).map (flatItem pdf.heap), (g :: gs).reverse ++ visited,
              if strict then some (.structureError t) else none) := by
  intro gs
  induction gs with
  | nil =>
    intro g visited fuel hchain hnodup hdisj ht hfuel
    simp only [chainB, Bool.and_eq_true] at hchain
    obtain ⟨⟨⟨htitle, hfirst⟩, hnext⟩, _⟩ := hchain
    rw [beq_iff_eq] at hfirst hnext
    have hgnv : g ∉ visited := (disjB_iff _ _).1 hdisj g (by simp)
    have hcont : visited.contains g = false := by simp [List.elem_iff, hgnv]
    obtain ⟨f, rfl⟩ : ∃ f, fuel = f + 2 := ⟨fuel - 2, by simp at hfuel; omega⟩
    obtain ⟨tv, htv⟩ := Option.isSome_iff_exists.1 htitle
    have hfrom : OutlineItem.from_dictionary_object g (pdf.heap g) = .ok (flatItem pdf.heap g) := by
      simp [OutlineItem.from_dictionary_object, htv, flatItem]
    have htmem : t ∈ g :: visited := by
      rcases ht with h1 | h2
      · simp at h1
        simp [h1]
      · simp [h2]
    have hcont2 : (g :: visited).contains t = true := by simp [List.elem_iff, htmem]
    rw [load_chain]
    simp only [hcont, Bool.false_eq_true, if_false, hfrom, hfirst, hnext]
    rw [load_chain]
    simp only [hcont2, if_true]
    cases strict <;> simp
  | cons g1 gs' IH =>
    intro g visited fuel hchain hnodup hdisj ht hfuel
    simp only [chainB, Bool.and_eq_true] at hchain
    obtain ⟨⟨⟨htitle, hfirst⟩, hnext⟩, htail⟩ := hchain
    rw [beq_iff_eq] at hfirst hnext
    have hgnv : g ∉ visited := (disjB_iff _ _).1 hdisj g (by simp)
    have hcont : visited.contains g = false := by simp [List.elem_iff, hgnv]
    obtain ⟨f, rfl⟩ : ∃ f, fuel = f + 1 := ⟨fuel - 1, by simp at hfuel; omega⟩
    obtain ⟨tv, htv⟩ := Option.isSome_iff_exists.1 htitle
    have hfrom : OutlineItem.from_dictionary_object g (pdf.heap g) = .ok (flatItem pdf.heap g) := by
      simp [OutlineItem.from_dictionary_object, htv, flatItem]
    have hchainTail : chainB pdf.heap (g1 :: gs') (some t) = true := by
      simp only [chainB, Bool.and_eq_true]
      exact htail
    have hnodup' : (g1 :: gs').Nodup := (List.nodup_cons.1 hnodup).2
    have hgnot : g ∉ g1 :: gs' := (List.nodup_cons.1 hnodup).1
    have hrec := IH g1 (g :: visited) f hchainTail hnodup'
      (by
        rw [disjB_iff]
        intro x hx
        simp only [List.mem_cons, not_or]
        refine ⟨fun hxg => hgnot (hxg ▸ hx), (disjB_iff _ _).1 hdisj x (by simp [hx])⟩)
      (by
        rcases ht with h1 | h2
        · rcases List.mem_cons.1 h1 with h3 | h4
          · right
            simp [h3]
          · left
            exact h4
        · right
          simp [h2])
      (by
        simp at hfuel ⊢
        omega)
    rw [load_chain]
    simp only [hcont, Bool.false_eq_true, if_false, hfrom, hfirst, hnext]
    rw [hrec]
    simp

/-- C3 (amended): in strict mode, a backing structure whose identity key
reoccurs during traversal raises `StructureError` naming the offending
identity, and the erroring `root` access returns no list; however the
partially loaded sequence stays cached in `_root`, so a subsequent `root`
access observes it. -/
theorem claim_C3_amended (o : Outline) (od t g0 : Nat) (gs' : List Nat) (fuel : Nat)
    (hroot : o.rootCache = none) (hstrict : o.strict = true)
    (hout : o.pdfDoc.rootOutlines = some od)
    (hfirst : (o.pdfDoc.heap od).first = some g0)
    (hchain : chainB o.pdfDoc.heap (g0 :: gs') (some t) = true)
    (hnodup : (g0 :: gs').Nodup)
    (ht : t ∈ g0 :: gs')
    (hfuel : (g0 :: gs').length + 1 ≤ fuel) :
    Outline.rootP fuel o =
      some ({ o with rootCache := some ((g0 :: gs').map (flatItem o.pdfDoc.heap)) },
            .error (.structureError t)) ∧
    Outline.rootP fuel { o with rootCache := some ((g0 :: gs').map (flatItem o.pdfDoc.heap)) } =
      some ({ o with rootCache := some ((g0 :: gs').map (flatItem o.pdfDoc.heap)) },
            .ok ((g0 :: gs').map (flatItem o.pdfDoc.heap))) ∧
    (g0 :: gs').map (flatItem o.pdfDoc.heap) ≠ [] := by
  have hl := load_chain_flat o.strict o.max_depth o.pdfDoc 0 t gs' g0 [] fuel hchain hnodup
    (by simp [disjB]) (Or.inl ht) hfuel
  rw [hstrict] at hl
  simp only [if_true] at hl
  refine ⟨?_, ?_, by simp⟩
  · simp only [Outline.rootP, hroot, Outline.loadRoot, hout, hfirst, hstrict]
    rw [hl]
  · simp [Outline.rootP]

theorem claim_C3_amended_witness :
    Outline.rootP 10 c3o =
      some ({ c3o with rootCache := some (([1, 2] : List Nat).map (flatItem c3o.pdfDoc.heap)) },
            .error (.structureError 1)) ∧
    Outline.rootP 10
        { c3o with rootCache := some (([1, 2] : List Nat).map (flatItem c3o.pdfDoc.heap)) } =
      some ({ c3o with rootCache := some (([1, 2] : List Nat).map (flatItem c3o.pdfDoc.heap)) },
            .ok (([1, 2] : List Nat).map (flatItem c3o.pdfDoc.heap))) ∧
    ([1, 2] : List Nat).map (flatItem c3o.pdfDoc.heap) ≠ [] :=
  claim_C3_amended c3o 10 1 1 [2] 10 rfl rfl rfl rfl (by decide) (by decide) (by decide)
    (by decide)

theorem unvisited_sub_le (D v1 v2 : List Nat) (hsub : ∀ x, x ∈ v1 → x ∈ v2) :
    unvisited D v2 ≤ unvisited D v1 := by
  induction D with
  | nil => simp [unvisited]
  | cons d D' IH =>
    by_cases h2 : d ∈ v2
    · by_cases h1 : d ∈ v1
      · simp only [unvisited, List.filter_cons, h1, h2] at IH ⊢
        simp at IH ⊢
        omega
      · simp only [unvisited, List.filter_cons, h1, h2] at IH ⊢
        simp at IH ⊢
        omega
    · have h1 : d ∉ v1 := fun hx => h2 (hsub d hx)
      simp only [unvisited, List.filter_cons, h1, h2] at IH ⊢
      simp at IH ⊢
      omega

theorem unvisited_cons_lt (D visited : List Nat) (g : Nat)
    (hg : g ∈ D) (hnv : g ∉ visited) :
    unvisited D (g :: visited) < unvisited D visited := by
  induction D with
  | nil => cases hg
  | cons d D' IH =>
    by_cases hdg : d = g
    · subst hdg
      have hle := unvisited_sub_le D' visited (d :: visited) (fun x hx => by simp [hx])
      have hmem : d ∈ d :: visited := by simp
      simp only [unvisited, List.filter_cons, hnv, hmem] at hle ⊢
      simp at hle ⊢
      omega
    · have hdgv : (d ∈ g :: visited) ↔ (d ∈ visited) := by
        simp [List.mem_cons, hdg]
      have hg' : g ∈ D' := by
        rcases List.mem_cons.1 hg with h | h
        · exact absurd h.symm hdg
        · exact h
      have := IH hg'
      by_cases hdv : d ∈ visited
      · have hdv2 : d ∈ g :: visited := by simp [hdv]
        simp only [unvisited, List.filter_cons, hdv, hdv2] at this ⊢
        simp at this ⊢
        omega
      · have hdv2 : d ∉ g :: visited := fun hx => hdv (hdgv.1 hx)
        simp only [unvisited, List.filter_cons, hdv, hdv2] at this ⊢
        simp at this ⊢
        omega

theorem load_chain_visited_mono (strict : Bool) (maxD : Nat) (pdf : Pdf) :
    ∀ (fuel g level : Nat) (visited : List Nat) (items : List OutlineItem)
      (vis' : List Nat) (err : Option PdfError),
      load_chain strict maxD pdf fuel g level visited = some (items, vis', err) →
      ∀ x, x ∈ visited → x ∈ vis' := by
  intro fuel
  induction fuel with
  | zero =>
    intro g level visited items vis' err h
    simp [load_chain] at h
  | succ f IH =>
    intro g level visited items vis' err h x hx
    rw [load_chain] at h
    simp only [] at h
    split at h
    · split at h <;>
        (simp only [Option.some.injEq, Prod.mk.injEq] at h
         obtain ⟨_, h2, _⟩ := h
         subst h2
         exact hx)
    · split at h
      · simp only [Option.some.injEq, Prod.mk.injEq] at h
        obtain ⟨_, h2, _⟩ := h
        subst h2
        simp [hx]
      · split at h
        · next heqc =>
          split at h
          · exact absurd h (by simp)
          · next kids vis2 e heq =>
            simp only [Option.some.injEq, Prod.mk.injEq] at h
            obtain ⟨_, h2, _⟩ := h
            subst h2
            exact IH _ _ _ _ _ _ heq x (by simp [hx])
          · next kids vis2 heq =>
            split at h
            · simp only [Option.some.injEq, Prod.mk.injEq] at h
              obtain ⟨_, h2, _⟩ := h
              subst h2
              exact IH _ _ _ _ _ _ heq x (by simp [hx])
            · split at h
              · exact absurd h (by simp)
              · next rest vis3 err2 heq2 =>
                simp only [Option.some.injEq, Prod.mk.injEq] at h
                obtain ⟨_, h2, _⟩ := h
                subst h2
                exact IH _ _ _ _ _ _ heq2 x (IH _ _ _ _ _ _ heq x (by simp [hx]))
        · split at h
          · simp only [Option.some.injEq, Prod.mk.injEq] at h
            obtain ⟨_, h2, _⟩ := h
            subst h2
            simp [hx]
          · split at h
            · exact absurd h (by simp)
            · next rest vis3 err2 heq2 =>
              simp only [Option.some.injEq, Prod.mk.injEq] at h
              obtain ⟨_, h2, _⟩ := h
              subst h2
              exact IH _ _ _ _ _ _ heq2 x (by simp [hx])

theorem coverB_next (pdf : Pdf) (D : List Nat) (h : coverB pdf D = true)
    (g nx : Nat) (hg : g ∈ D) (hnx : (pdf.heap g).next = some nx) : nx ∈ D := by
  simp only [coverB, List.all_eq_true, Bool.and_eq_true] at h
  have h2 := (h g hg).1
  rw [hnx] at h2
  simpa [List.elem_iff] using h2

theorem coverB_first (pdf : Pdf) (D : List Nat) (h : coverB pdf D = true)
    (g fc : Nat) (hg : g ∈ D) (hfc : (pdf.heap g).first = some fc) : fc ∈ D := by
  simp only [coverB, List.all_eq_true, Bool.and_eq_true] at h
  have h2 := (h g hg).2
  rw [hfc] at h2
  simpa [List.elem_iff] using h2

theorem load_chain_cover (strict : Bool) (maxD : Nat) (pdf : Pdf) (D : List Nat)
    (hcov : coverB pdf D = true) :
    ∀ (fuel g level : Nat) (visited : List Nat),
      g ∈ D →
      unvisited D visited + 1 ≤ fuel →
      (load_chain strict maxD pdf fuel g level visited).isSome = true := by
  intro fuel
  induction fuel using Nat.strong_induction_on with
  | _ fuel IH =>
    intro g level visited hg hfuel
    obtain ⟨f, rfl⟩ : ∃ f, fuel = f + 1 := ⟨fuel - 1, by omega⟩
    rw [load_chain]
    simp only []
    split
    · split <;> simp
    · rename_i hnc
      have hgnv : g ∉ visited := by
        intro hmem
        exact hnc (by simp [List.elem_iff, hmem])
      have hlt : unvisited D (g :: visited) < unvisited D visited :=
        unvisited_cons_lt D visited g hg hgnv
      split
      · simp
      · split
        · rename_i fcv hfc hdec
          have hfcD : fcv ∈ D := coverB_first pdf D hcov g fcv hg hfc
          have hfb : unvisited D (g :: visited) + 1 ≤ f := by omega
          have hchild := IH f (by omega) fcv (level + 1) (g :: visited) hfcD hfb
          cases hklr : load_chain strict maxD pdf f fcv (level + 1) (g :: visited) with
          | none => simp [hklr] at hchild
          | some r =>
            obtain ⟨kids, vis2, err⟩ := r
            cases err with
            | some e => simp
            | none =>
              have hsub2 : ∀ x, x ∈ g :: visited → x ∈ vis2 := by
                intro x hx
                exact load_chain_visited_mono strict maxD pdf f fcv (level + 1)
                  (g :: visited) kids vis2 none hklr x hx
              have hb2 : unvisited D vis2 + 1 ≤ f := by
                have := unvisited_sub_le D (g :: visited) vis2 hsub2
                omega
              cases hnx : (pdf.heap g).next with
              | none => simp
              | some nx =>
                have hnxD : nx ∈ D := coverB_next pdf D hcov g nx hg hnx
                have hnext := IH f (by omega) nx level vis2 hnxD hb2
                cases hklr2 : load_chain strict maxD pdf f nx level vis2 with
                | none => simp [hklr2] at hnext
                | some r2 =>
                  obtain ⟨rest, vis3, err2⟩ := r2
                  simp [hklr2]
        · rename_i hwild
          cases hnx : (pdf.heap g).next with
          | none => simp
          | some nx =>
            have hnxD : nx ∈ D := coverB_next pdf D hcov g nx hg hnx
            have hb2 : unvisited D (g :: visited) + 1 ≤ f := by omega
            have hnext := IH f (by omega) nx level (g :: visited) hnxD hb2
            cases hklr2 : load_chain strict maxD pdf f nx level (g :: visited) with
            | none => simp [hklr2] at hnext
            | some r2 =>
              obtain ⟨rest, vis3, err2⟩ := r2
              simp [hklr2]

/-- C4: in lax mode, loading a backing sibling chain containing a cycle
terminates — any identity set `D` covering the traversal bounds it, so
fuel `|D \ visited| + 1` suffices in either mode — and the loaded list for
a flat cyclic chain contains exactly the nodes up to, but not including,
the repeated node, with no error and all previously emitted siblings kept. -/
theorem claim_C4_lax_cycle :
    (∀ (pdf : Pdf) (strict : Bool) (maxD : Nat) (D : List Nat) (fuel g level : Nat)
       (visited : List Nat),
       coverB pdf D = true → g ∈ D → unvisited D visited + 1 ≤ fuel →
       (load_chain strict maxD pdf fuel g level visited).isSome = true) ∧
    (∀ (pdf : Pdf) (maxD level t fuel g : Nat) (gs visited : List Nat),
       chainB pdf.heap (g :: gs) (some t) = true →
       (g :: gs).Nodup →
       disjB (g :: gs) visited = true →
       (t ∈ (g :: gs) ∨ t ∈ visited) →
       (g :: gs).length + 1 ≤ fuel →
       load_chain false maxD pdf fuel g level visited =
         some ((g :: gs).map (flatItem pdf.heap), (g :: gs).reverse ++ visited, none)) := by
  constructor
  · intro pdf strict maxD D fuel g level visited hcov hg hfuel
    exact load_chain_cover strict maxD pdf D hcov fuel g level visited hg hfuel
  · intro pdf maxD level t fuel g gs visited hchain hnodup hdisj ht hfuel
    have := load_chain_flat false maxD pdf level t gs g visited fuel hchain hnodup hdisj ht hfuel
    simpa using this

theorem claim_C4_witness :
    (load_chain false 15 c3pdf 10 1 0 []).isSome = true ∧
    load_chain false 15 c3pdf 10 1 0 [] =
      some (([1, 2] : List Nat).map (flatItem c3pdf.heap),
            ([1, 2] : List Nat).reverse ++ [], none) :=
  ⟨claim_C4_lax_cycle.1 c3pdf false 15 [1, 2] 10 1 0 [] (by decide) (by decide) (by decide),
   claim_C4_lax_cycle.2 c3pdf 15 0 1 10 1 [2] [] (by decide) (by decide) (by decide)
     (by decide) (by decide)⟩

theorem sizeL_cons (i : OutlineItem) (r : List OutlineItem) :
    sizeL (i :: r) = 1 + sizeL i.children + sizeL r := by
  simp [sizeL]

theorem levelCount_cons (maxD level : Nat) (i : OutlineItem) (r : List OutlineItem) :
    levelCount maxD level (i :: r) =
      1 + (if i.is_closed then 0
           else if level < maxD then levelCount maxD (level + 1) i.children else 0)
        + levelCount maxD level r := by
  simp [levelCount]

theorem levelCount_nonneg (maxD : Nat) : ∀ (level : Nat) (F : List OutlineItem),
    0 ≤ levelCount maxD level F := by
  intro level F
  match F with
  | [] => simp [levelCount]
  | i :: r =>
    rw [levelCount_cons]
    have h1 : 0 ≤ levelCount maxD level r := levelCount_nonneg maxD level r
    have hk : 0 ≤ (if i.is_closed then 0
        else if level < maxD then levelCount maxD (level + 1) i.children else 0) := by
      split
      · omega
      · split
        · exact levelCount_nonneg maxD (level + 1) i.children
        · omega
    omega
termination_by level F => sizeL F
decreasing_by
  all_goals (simp only [sizeL]; try split) <;> (try simp only [sizeL]) <;> omega

theorem levelCount_pos (maxD level : Nat) (i : OutlineItem) (r : List OutlineItem) :
    0 < levelCount maxD level (i :: r) := by
  rw [levelCount_cons]
  have hk : 0 ≤ (if i.is_closed then 0
      else if level < maxD then levelCount maxD (level + 1) i.children else 0) := by
    split
    · omega
    · split
      · exact levelCount_nonneg maxD (level + 1) i.children
      · omega
  have := levelCount_nonneg maxD level r
  omega

theorem idsTr_cons (maxD level : Nat) (i : OutlineItem) (r : List OutlineItem) :
    idsTr maxD level (i :: r) =
      i.obj.toList ++ (if level < maxD then idsTr maxD (level + 1) i.children else [])
        ++ idsTr maxD level r := by
  simp [idsTr]

theorem lastObj_cons (i : OutlineItem) (r : List OutlineItem) :
    lastObj (i :: r) = (match r with | [] => i.obj | _ :: _ => lastObj r) := by
  cases r <;> simp [lastObj]

theorem preChain_congr (maxD : Nat) (h1 h2 : Heap) :
    ∀ (level : Nat) (F : List OutlineItem),
      (∀ x, x ∈ idsTr maxD level F → h1 x = h2 x) →
      preChain h1 maxD level F = preChain h2 maxD level F := by
  intro level F hagree
  match F with
  | [] => simp [preChain]
  | i :: r =>
    match hobj : i.obj with
    | none => simp [preChain, hobj]
    | some g =>
      have hg : h1 g = h2 g := hagree g (by simp [idsTr_cons, hobj])
      have hkids : (if level < maxD then preChain h1 maxD (level + 1) i.children else true) =
          (if level < maxD then preChain h2 maxD (level + 1) i.children else true) := by
        split
        · next hlt =>
          exact preChain_congr maxD h1 h2 (level + 1) i.children
            (fun x hx => hagree x (by simp [idsTr_cons, hobj, hlt, hx]))
        · rfl
      have hrest : preChain h1 maxD level r = preChain h2 maxD level r :=
        preChain_congr maxD h1 h2 level r
          (fun x hx => hagree x (by simp [idsTr_cons, hobj, hx]))
      simp only [preChain, hobj, hg, hkids, hrest]
termination_by level F => sizeL F
decreasing_by
  all_goals (simp only [sizeL]; try split) <;> (try simp only [sizeL]) <;> omega

theorem nodesW_nil (pre post : Heap) (maxD level p : Nat) (prevId lastNext : Option Nat) :
    nodesW pre post maxD level p prevId lastNext [] := by
  rw [nodesW]
  trivial

theorem nodesW_cons (pre post : Heap) (maxD level p : Nat) (prevId lastNext : Option Nat)
    (i : OutlineItem) (r : List OutlineItem) :
    nodesW pre post maxD level p prevId lastNext (i :: r) ↔
      (∃ g, i.obj = some g ∧
        post g = nodeAfter (pre g) i p prevId (nextOf r lastNext)
          (headObj (if level < maxD then i.children else []))
          (lastObj (if level < maxD then i.children else []))
          (levelCount maxD (level + 1) (if level < maxD then i.children else []))
        ∧ nodesW pre post maxD (level + 1) g none none
            (if level < maxD then i.children else [])
        ∧ nodesW pre post maxD level p (some g) lastNext r) := by
  rw [nodesW]

theorem nodesW_congr (maxD : Nat) (pre1 pre2 post1 post2 : Heap) :
    ∀ (level p : Nat) (prevId lastNext : Option Nat) (F : List OutlineItem),
      (∀ x, x ∈ idsTr maxD level F → pre1 x = pre2 x) →
      (∀ x, x ∈ idsTr maxD level F → post1 x = post2 x) →
      nodesW pre1 post1 maxD level p prevId lastNext F →
      nodesW pre2 post2 maxD level p prevId lastNext F := by
  intro level p prevId lastNext F hpre hpost hW
  match F with
  | [] => exact nodesW_nil pre2 post2 maxD level p prevId lastNext
  | i :: r =>
    obtain ⟨g, hobj, hnode, hkids, hrest⟩ := (nodesW_cons _ _ _ _ _ _ _ _ _).1 hW
    have hgmem : g ∈ idsTr maxD level (i :: r) := by simp [idsTr_cons, hobj]
    refine (nodesW_cons _ _ _ _ _ _ _ _ _).2 ⟨g, hobj, ?_, ?_, ?_⟩
    · rw [← hpost g hgmem, ← hpre g hgmem]
      exact hnode
    · by_cases hlt : level < maxD
      · simp only [hlt, if_true] at hkids ⊢
        exact nodesW_congr maxD pre1 pre2 post1 post2 (level + 1) g none none i.children
          (fun x hx => hpre x (by simp [idsTr_cons, hobj, hlt, hx]))
          (fun x hx => hpost x (by simp [idsTr_cons, hobj, hlt, hx])) hkids
      · simp only [hlt, if_false] at hkids ⊢
        exact nodesW_nil pre2 post2 maxD (level + 1) g none none
    · exact nodesW_congr maxD pre1 pre2 post1 post2 level p (some g) lastNext r
        (fun x hx => hpre x (by simp [idsTr_cons, hobj, hx]))
        (fun x hx => hpost x (by simp [idsTr_cons, hobj, hx])) hrest
termination_by level p prevId lastNext F => sizeL F
decreasing_by
  all_goals (simp only [sizeL]; try split) <;> (try simp only [sizeL]) <;> omega

theorem idsTr_if (maxD level : Nat) (c : Prop) [Decidable c] (F : List OutlineItem) :
    idsTr maxD level (if c then F else []) = (if c then idsTr maxD level F else []) := by
  split <;> simp [idsTr]

theorem mem_idsTr_cons (maxD level : Nat) (i : OutlineItem) (r : List OutlineItem)
    (g x : Nat) (hobj : i.obj = some g) :
    x ∈ idsTr maxD level (i :: r) ↔
      x = g ∨ x ∈ idsTr maxD (level + 1) (if level < maxD then i.children else []) ∨
        x ∈ idsTr maxD level r := by
  rw [idsTr_if, idsTr_cons, hobj]
  simp [List.mem_append]


theorem idsTr_cons_nodup (maxD level : Nat) (i : OutlineItem) (r : List OutlineItem)
    (g : Nat) (hobj : i.obj = some g)
    (h : (idsTr maxD level (i :: r)).Nodup) :
    g ∉ idsTr maxD (level + 1) (if level < maxD then i.children else []) ∧
    g ∉ idsTr maxD level r ∧
    (idsTr maxD (level + 1) (if level < maxD then i.children else [])).Nodup ∧
    (idsTr maxD level r).Nodup ∧
    (∀ x, x ∈ idsTr maxD (level + 1) (if level < maxD then i.children else []) →
      x ∉ idsTr maxD level r) := by
  rw [idsTr_if]
  rw [idsTr_cons, hobj] at h
  simp only [Option.toList_some, List.cons_append, List.nodup_cons, List.mem_append,
    List.nodup_append, not_or] at h
  obtain ⟨⟨⟨h0, h1⟩, h2⟩, ⟨h6, h3, h7⟩, h4, h5⟩ := h
  simp only [List.nil_append] at h5
  exact ⟨h1, h2, h3, h4, fun x hx hxb => h5 hx hxb⟩

theorem lastObj_mem_idsTr (maxD : Nat) :
    ∀ (level : Nat) (F : List OutlineItem) (gl : Nat),
      lastObj F = some gl → gl ∈ idsTr maxD level F := by
  intro level F gl hl
  match F with
  | [] => simp [lastObj] at hl
  | [i] =>
    simp [lastObj] at hl
    simp [idsTr_cons, hl]
  | i :: j :: r =>
    have h2 : lastObj (j :: r) = some gl := by
      rw [lastObj_cons] at hl
      exact hl
    have hmem := lastObj_mem_idsTr maxD level (j :: r) gl h2
    rw [idsTr_cons]
    exact List.mem_append_right _ hmem
termination_by level F gl _ => sizeL F
decreasing_by
  all_goals (simp only [sizeL]; try split) <;> (try simp only [sizeL]) <;> omega
theorem nodeAfter_set_next (pre : DictObj) (i : OutlineItem) (p : Nat)
    (prevId nextId firstKid lastKid : Option Nat) (cnt : Int) :
    { nodeAfter pre i p prevId nextId firstKid lastKid cnt with next := none } =
      nodeAfter pre i p prevId none firstKid lastKid cnt := rfl

theorem nodesW_set_last_next (pre post : Heap) (maxD : Nat) :
    ∀ (level p : Nat) (prevId lastNext : Option Nat) (F : List OutlineItem) (gl : Nat),
      lastObj F = some gl →
      (idsTr maxD level F).Nodup →
      nodesW pre post maxD level p prevId lastNext F →
      nodesW pre (hupd post gl (fun d => { d with next := none }))
        maxD level p prevId none F := by
  intro level p prevId lastNext F gl hl hnd hW
  match F with
  | [] => simp [lastObj] at hl
  | [i] =>
    obtain ⟨g, hobj, hnode, hkids, -⟩ := (nodesW_cons _ _ _ _ _ _ _ _ _).1 hW
    have hgl : g = gl := by
      rw [lastObj, hobj] at hl
      exact Option.some.inj hl
    subst hgl
    obtain ⟨hknot, -, -, -, -⟩ := idsTr_cons_nodup maxD level i [] g hobj hnd
    refine (nodesW_cons _ _ _ _ _ _ _ _ _).2 ⟨g, hobj, ?_, ?_,
      nodesW_nil _ _ _ _ _ _ _⟩
    · rw [hupd_same, hnode, nodeAfter_set_next]
      simp [nextOf]
    · refine nodesW_congr maxD pre pre post
        (hupd post g (fun d => { d with next := none })) (level + 1) g none none
        (if level < maxD then i.children else []) (fun x _ => rfl) ?_ hkids
      intro x hx
      exact (hupd_other post g x _ (fun e => hknot (e ▸ hx))).symm
  | i :: j :: r =>
    obtain ⟨g, hobj, hnode, hkids, hrest⟩ := (nodesW_cons _ _ _ _ _ _ _ _ _).1 hW
    have hl2 : lastObj (j :: r) = some gl := by
      rw [lastObj_cons] at hl
      exact hl
    have hglmem : gl ∈ idsTr maxD level (j :: r) := lastObj_mem_idsTr maxD level (j :: r) gl hl2
    obtain ⟨hknot, hgnotr, hknd, hrnd, hdisj⟩ :=
      idsTr_cons_nodup maxD level i (j :: r) g hobj hnd
    have hggl : g ≠ gl := fun e => hgnotr (e ▸ hglmem)
    have hglk : gl ∉ idsTr maxD (level + 1) (if level < maxD then i.children else []) :=
      fun hx => hdisj gl hx hglmem
    refine (nodesW_cons _ _ _ _ _ _ _ _ _).2 ⟨g, hobj, ?_, ?_, ?_⟩
    · rw [hupd_other post gl g _ hggl, hnode]
      simp [nextOf]
    · refine nodesW_congr maxD pre pre post
        (hupd post gl (fun d => { d with next := none })) (level + 1) g none none
        (if level < maxD then i.children else []) (fun x _ => rfl) ?_ hkids
      intro x hx
      exact (hupd_other post gl x _ (fun e => hglk (e ▸ hx))).symm
    · exact nodesW_set_last_next pre post maxD level p (some g) lastNext (j :: r) gl
        hl2 hrnd hrest
termination_by level p prevId lastNext F gl _ _ _ => sizeL F
decreasing_by
  simp only [sizeL]
  omega
theorem OutlineItem.eta_children (i : OutlineItem) :
    { i with children := i.children } = i := by
  cases i
  rfl

theorem levelCount_if (maxD level : Nat) (c : Prop) [Decidable c]
    (F : List OutlineItem) :
    levelCount maxD level (if c then F else []) =
      (if c then levelCount maxD level F else 0) := by
  split <;> simp [levelCount]

theorem preChain_cons (h : Heap) (maxD level : Nat) (i : OutlineItem)
    (r : List OutlineItem) (hp : preChain h maxD level (i :: r) = true) :
    ∃ g, i.obj = some g ∧
      (∀ n, i.destination ≠ some (.page n)) ∧
      ((i.destination ≠ none ∨ i.action ≠ none) ∨
        ((h g).dest = none ∧ (h g).a = none)) ∧
      preChain h maxD (level + 1) (if level < maxD then i.children else []) = true ∧
      preChain h maxD level r = true := by
  rw [preChain] at hp
  match hobj : i.obj with
  | none => rw [hobj] at hp; cases hp
  | some g =>
    rw [hobj] at hp
    simp only [Bool.and_eq_true] at hp
    obtain ⟨⟨hdok, hkids⟩, hrest⟩ := hp
    refine ⟨g, rfl, ?_, ?_, ?_, hrest⟩
    · intro n hpage
      rw [hpage] at hdok
      cases ha : i.action <;> rw [ha] at hdok <;> cases hdok
    · match hd : i.destination, ha : i.action with
      | some (.val v), none => exact Or.inl (Or.inl (by simp [hd]))
      | none, some a => exact Or.inl (Or.inr (by simp [ha]))
      | none, none =>
        rw [hd, ha] at hdok
        simp only [Bool.and_eq_true, beq_iff_eq] at hdok
        exact Or.inr hdok
      | some (.page n), ha' =>
        rw [hd] at hdok
        cases ha'' : i.action <;> rw [ha''] at hdok <;> cases hdok
      | some (.val v), some a => rw [hd, ha] at hdok; cases hdok
    · split
      · next hlt => rw [if_pos hlt] at hkids; exact hkids
      · simp [preChain]
  termination_by sizeL r

theorem preChain_lastObj (h : Heap) (maxD : Nat) :
    ∀ (level : Nat) (i : OutlineItem) (r : List OutlineItem),
      preChain h maxD level (i :: r) = true →
      ∃ gl, lastObj (i :: r) = some gl := by
  intro level i r hp
  match r with
  | [] =>
    obtain ⟨g, hobj, -⟩ := preChain_cons h maxD level i [] hp
    exact ⟨g, by simp [lastObj, hobj]⟩
  | j :: r' =>
    obtain ⟨g, hobj, -, -, -, hrest⟩ := preChain_cons h maxD level i (j :: r') hp
    obtain ⟨gl, hgl⟩ := preChain_lastObj h maxD level j r' hrest
    exact ⟨gl, by rw [lastObj_cons]; exact hgl⟩
termination_by level i r _ => sizeL r
decreasing_by
  simp only [sizeL]
  omega

theorem writeTitleDestA_ok (pdf : Pdf) (item : OutlineItem) (g : Nat)
    (hnp : ∀ n, item.destination ≠ some (.page n)) :
    writeTitleDestA pdf item g =
      .ok (pdfUpd pdf g (fun d =>
        { d with title := some item.title, dest := destAfter d item,
                 a := aAfter d item }), item, g) := by
  match hd : item.destination with
  | some (.page n) => exact absurd hd (hnp n)
  | some (.val v) =>
    rw [writeTitleDestA_val pdf item g v hd]
    simp [destAfter, aAfter, hd]
  | none =>
    match ha : item.action with
    | some act =>
      rw [writeTitleDestA_act pdf item g act hd ha]
      simp [destAfter, aAfter, hd, ha]
    | none =>
      rw [writeTitleDestA_none pdf item g hd ha]
      simp [destAfter, aAfter, hd, ha]
theorem heap4_some (h : Heap) (item : OutlineItem) (parent g pg : Nat)
    (hpg : pg ≠ g) :
    hupd (hupd (hupd (hupd h g (fun d =>
        { d with title := some item.title, dest := destAfter d item, a := aAfter d item }))
        g (fun d => { d with parent := some parent }))
      pg (fun d => { d with next := some g }))
      g (fun d => { d with prev := some pg })
    = heap4 h item parent g (some pg) := by
  funext x
  by_cases hx : x = g
  · subst hx
    simp [heap4, hupd, hpg, Ne.symm hpg]
  · by_cases hx2 : x = pg
    · subst hx2
      simp [heap4, hupd, hpg]
    · simp [heap4, hupd, hx, hx2]

theorem heap4_none (h : Heap) (item : OutlineItem) (parent g : Nat) :
    hupd (hupd (hupd h g (fun d =>
        { d with title := some item.title, dest := destAfter d item, a := aAfter d item }))
        g (fun d => { d with parent := some parent }))
      g (fun d => { d with prev := none })
    = heap4 h item parent g none := by
  funext x
  by_cases hx : x = g
  · subst hx
    simp [heap4, hupd]
  · simp [heap4, hupd, hx]
theorem save_items_cons (strict : Bool) (maxD parent level : Nat)
    (item : OutlineItem) (rest : List OutlineItem) (pdf : Pdf) (visited : List Nat)
    (count : Int) (prev first : Option Nat) (g : Nat)
    (hobj : item.obj = some g)
    (hnp : ∀ n, item.destination ≠ some (.page n))
    (hvg : visited.contains g = false)
    (hpg : ∀ pg, prev = some pg → pg ≠ g) :
    save_items strict maxD parent level (item :: rest) pdf visited count prev first =
      (let pdf4 : Pdf := { pdf with heap := heap4 pdf.heap item parent g prev };
       let first1 : Option Nat := firstUpd prev (item :: rest) first;
       let r := save_level strict maxD g (level + 1)
         (if level < maxD then item.children else []) pdf4 (g :: visited);
       let item3 := if level < maxD then { item with children := r.items } else item;
       match r.err with
       | some e => ⟨r.pdf, item3 :: rest, r.visited, count + 1, some g, first1, some e⟩
       | none =>
         let st2 :=
           if item.is_closed then
             ({ r.pdf with heap := hupd r.pdf.heap g (fun d => { d with count := some (-(d.count.getD 0)) }) }, count + 1)
           else
             (r.pdf, count + 1 + ((r.pdf.heap g).count.getD 0));
         let tail := save_items strict maxD parent level rest st2.1 r.visited st2.2 (some g) first1;
         { tail with items := item3 :: tail.items }) := by
  rw [save_items]
  rw [toDict_reuse pdf item g hobj, writeTitleDestA_ok pdf item g hnp]
  simp only [hvg, Bool.false_eq_true, if_false, pdfUpd]
  cases prev with
  | none =>
    simp only [firstUpd, hobj]
    rw [heap4_none pdf.heap item parent g]
  | some pg =>
    have hpgg : pg ≠ g := hpg pg rfl
    simp only [firstUpd]
    rw [heap4_some pdf.heap item parent g pg hpgg]
theorem save_items_nil (strict : Bool) (maxD parent level : Nat) (pdf : Pdf)
    (visited : List Nat) (count : Int) (prev first : Option Nat) :
    save_items strict maxD parent level [] pdf visited count prev first =
      ⟨pdf, [], visited, count, prev, first, none⟩ := by
  rw [save_items]

theorem heap4_self (h : Heap) (item : OutlineItem) (parent g : Nat)
    (prev : Option Nat) (hpg : ∀ pg, prev = some pg → pg ≠ g) :
    heap4 h item parent g prev g =
      { h g with title := some item.title, dest := destAfter (h g) item, a := aAfter (h g) item, parent := some parent, prev := prev } := by
  cases prev with
  | none => simp [heap4, hupd]
  | some pg => simp [heap4, hupd, Ne.symm (hpg pg rfl)]

theorem heap4_pg (h : Heap) (item : OutlineItem) (parent g pg : Nat)
    (hpg : pg ≠ g) :
    heap4 h item parent g (some pg) pg = { h pg with next := some g } := by
  simp [heap4, hupd, hpg]

theorem heap4_frame (h : Heap) (item : OutlineItem) (parent g : Nat)
    (prev : Option Nat) (x : Nat) (hx : x ≠ g)
    (hxp : ∀ pg, prev = some pg → x ≠ pg) :
    heap4 h item parent g prev x = h x := by
  cases prev with
  | none => simp [heap4, hupd, hx]
  | some pg => simp [heap4, hupd, hx, hxp pg rfl]

theorem contains_false_iff (l : List Nat) (x : Nat) :
    l.contains x = false ↔ x ∉ l := by
  rw [← Bool.not_eq_true, List.elem_iff]
theorem save_items_glue (strict : Bool) (maxD parent level : Nat)
    (item : OutlineItem) (rest : List OutlineItem) (pdf : Pdf) (visited : List Nat)
    (count : Int) (prev first : Option Nat) (g : Nat) (lr : LevelRes)
    (pdf5 : Pdf) (count2 : Int)
    (hobj : item.obj = some g)
    (hnp : ∀ n, item.destination ≠ some (.page n))
    (hnd : (idsTr maxD level (item :: rest)).Nodup)
    (hvis : ∀ x, x ∈ idsTr maxD level (item :: rest) → visited.contains x = false)
    (hpar : parent ∉ idsTr maxD level (item :: rest))
    (hprev : ∀ pg, prev = some pg → pg ∉ idsTr maxD level (item :: rest))
    (hlr : save_level strict maxD g (level + 1)
      (if level < maxD then item.children else [])
      { pdf with heap := heap4 pdf.heap item parent g prev } (g :: visited) = lr)
    (hQerr : lr.err = none)
    (hQitems : lr.items = (if level < maxD then item.children else []))
    (hQvis : lr.visited =
      (idsTr maxD (level + 1) (if level < maxD then item.children else [])).reverse
        ++ (g :: visited))
    (hQframe : ∀ x,
      x ∉ idsTr maxD (level + 1) (if level < maxD then item.children else []) →
      x ≠ g → lr.pdf.heap x = heap4 pdf.heap item parent g prev x)
    (hQnodes : nodesW (heap4 pdf.heap item parent g prev) lr.pdf.heap maxD
      (level + 1) g none none (if level < maxD then item.children else []))
    (hQnid : lr.pdf.nextId = pdf.nextId)
    (hQnp : lr.pdf.numPages = pdf.numPages)
    (hQro : lr.pdf.rootOutlines = pdf.rootOutlines)
    (hp5g : pdf5.heap g = { heap4 pdf.heap item parent g prev g with first := headObj (if level < maxD then item.children else []), last := lastObj (if level < maxD then item.children else []), count := some (if item.is_closed then -(levelCount maxD (level + 1) (if level < maxD then item.children else [])) else levelCount maxD (level + 1) (if level < maxD then item.children else [])) })
    (hp5o : ∀ x, x ≠ g → pdf5.heap x = lr.pdf.heap x)
    (hp5nid : pdf5.nextId = lr.pdf.nextId)
    (hp5np : pdf5.numPages = lr.pdf.numPages)
    (hp5ro : pdf5.rootOutlines = lr.pdf.rootOutlines)
    (hcount2 : count2 = count + 1 + (if item.is_closed then 0
      else levelCount maxD (level + 1) (if level < maxD then item.children else [])))
    (hst : (if item.is_closed then
        ({ lr.pdf with heap := hupd lr.pdf.heap g (fun d => { d with count := some (-(d.count.getD 0)) }) }, count + 1)
      else (lr.pdf, count + 1 + ((lr.pdf.heap g).count.getD 0))) = (pdf5, count2))
    (hT : SaveItemsSpec strict maxD parent level rest pdf5 lr.visited count2
      (some g) (firstUpd prev (item :: rest) first)) :
    SaveItemsSpec strict maxD parent level (item :: rest) pdf visited count prev first := by
  have hgmem : g ∈ idsTr maxD level (item :: rest) :=
    (mem_idsTr_cons maxD level item rest g g hobj).2 (Or.inl rfl)
  obtain ⟨hgK, hgR, hndK, hndR, hdisjKR⟩ :=
    idsTr_cons_nodup maxD level item rest g hobj hnd
  have hvg : visited.contains g = false := hvis g hgmem
  have hpgg : ∀ pg, prev = some pg → pg ≠ g :=
    fun pg hp he => hprev pg hp (he ▸ hgmem)
  have hmemK : ∀ x, x ∈ idsTr maxD (level + 1) (if level < maxD then item.children else []) →
      x ∈ idsTr maxD level (item :: rest) :=
    fun x hx => (mem_idsTr_cons maxD level item rest g x hobj).2 (Or.inr (Or.inl hx))
  have hmemR : ∀ x, x ∈ idsTr maxD level rest → x ∈ idsTr maxD level (item :: rest) :=
    fun x hx => (mem_idsTr_cons maxD level item rest g x hobj).2 (Or.inr (Or.inr hx))
  simp only [SaveItemsSpec] at hT ⊢
  obtain ⟨hTerr, hTitems, hTvis, hTcount, hTprev, hTfirst, hTframe, hTprevw,
    hTnodes, hTnid, hTnp, hTro⟩ := hT
  rw [save_items_cons strict maxD parent level item rest pdf visited count prev
    first g hobj hnp hvg hpgg]
  simp only [hlr, hQerr]
  rw [hst]
  simp only [show ((pdf5, count2).1) = pdf5 from rfl,
    show ((pdf5, count2).2) = count2 from rfl]
  have hitem3 : (if level < maxD then { item with children := lr.items } else item) = item := by
    split
    · next hlt =>
      rw [hQitems, if_pos hlt]
      exact OutlineItem.eta_children item
    · rfl
  refine ⟨hTerr, ?_, ?_, ?_, ?_, ?_, ?_, ?_, ?_, hTnid.trans (hp5nid.trans hQnid),
    hTnp.trans (hp5np.trans hQnp), hTro.trans (hp5ro.trans hQro)⟩
  · rw [hitem3, hTitems]
  · rw [hTvis, hQvis, idsTr_cons, hobj]
    simp [List.reverse_append, List.append_assoc, idsTr_if]
  · rw [hTcount, hcount2, levelCount_cons, levelCount_if]
    ring
  · rw [hTprev]
    cases rest <;> simp [lastOr, lastObj_cons, lastObj, hobj]
  · rw [hTfirst]
    cases rest <;> simp [firstUpd]
  · intro x hx hxp
    have hxg : x ≠ g := fun e => hx (e ▸ hgmem)
    have hxK : x ∉ idsTr maxD (level + 1) (if level < maxD then item.children else []) :=
      fun hk => hx (hmemK x hk)
    have hxR : x ∉ idsTr maxD level rest := fun hr => hx (hmemR x hr)
    rw [hTframe x hxR (fun pg hp e => by cases hp; exact hxg e),
      hp5o x hxg, hQframe x hxK hxg]
    exact heap4_frame pdf.heap item parent g prev x hxg hxp
  · intro pg hp
    have hpgmem : pg ∉ idsTr maxD level (item :: rest) := hprev pg hp
    have hpgne : pg ≠ g := hpgg pg hp
    have hpgK : pg ∉ idsTr maxD (level + 1) (if level < maxD then item.children else []) :=
      fun hk => hpgmem (hmemK pg hk)
    have hpgR : pg ∉ idsTr maxD level rest := fun hr => hpgmem (hmemR pg hr)
    rw [hTframe pg hpgR (fun pg' hp' e => by cases hp'; exact hpgne e),
      hp5o pg hpgne, hQframe pg hpgK hpgne, hp,
      heap4_pg pdf.heap item parent g pg hpgne]
    simp [prevAfter, headObj, hobj]
  · refine (nodesW_cons _ _ _ _ _ _ _ _ _).2 ⟨g, hobj, ?_, ?_, ?_⟩
    · have haccg := hTprevw g rfl
      rw [haccg]
      cases rest with
      | nil =>
        simp only [prevAfter]
        rw [hp5g, heap4_self pdf.heap item parent g prev hpgg]
        simp [nodeAfter, nextOf, lastNextVal, lastObj, hobj]
      | cons j r' =>
        simp only [prevAfter]
        rw [hp5g, heap4_self pdf.heap item parent g prev hpgg]
        simp [nodeAfter, nextOf, headObj]
    · refine nodesW_congr maxD (heap4 pdf.heap item parent g prev) pdf.heap
        lr.pdf.heap _ (level + 1) g none none _ ?_ ?_ hQnodes
      · intro x hx
        exact heap4_frame pdf.heap item parent g prev x (fun e => hgK (e ▸ hx))
          (fun pg hp e => hprev pg hp (e ▸ hmemK x hx))
      · intro x hx
        have hxg : x ≠ g := fun e => hgK (e ▸ hx)
        have hxR : x ∉ idsTr maxD level rest := fun hr => hdisjKR x hx hr
        rw [hTframe x hxR (fun pg hp e => by cases hp; exact hxg e), hp5o x hxg]
    · cases rest with
      | nil => exact nodesW_nil _ _ _ _ _ _ _
      | cons j r' =>
        have hlnv : lastNextVal pdf5.heap (j :: r') =
            lastNextVal pdf.heap (item :: j :: r') := by
          cases hlo : lastObj (j :: r') with
          | none =>
            have hlo2 : lastObj (item :: j :: r') = none := by
              rw [lastObj_cons]
              exact hlo
            simp [lastNextVal, hlo, hlo2]
          | some gl =>
            have hglR : gl ∈ idsTr maxD level (j :: r') :=
              lastObj_mem_idsTr maxD level (j :: r') gl hlo
            have hgle : lastObj (item :: j :: r') = some gl := by
              rw [lastObj_cons]
              exact hlo
            have hglg : gl ≠ g := fun e => hgR (e ▸ hglR)
            have hchain : pdf5.heap gl = pdf.heap gl := by
              rw [hp5o gl hglg, hQframe gl (fun hk => hdisjKR gl hk hglR) hglg]
              exact heap4_frame pdf.heap item parent g prev gl hglg
                (fun pg hp e => hprev pg hp (e ▸ hmemR gl hglR))
            simp [lastNextVal, hlo, hgle, hchain]
        rw [← hlnv]
        refine nodesW_congr maxD pdf5.heap pdf.heap _ _ level parent (some g) _
          (j :: r') ?_ (fun x _ => rfl) hTnodes
        intro x hx
        have hxg : x ≠ g := fun e => hgR (e ▸ hx)
        rw [hp5o x hxg, hQframe x (fun hk => hdisjKR x hk hx) hxg]
        exact heap4_frame pdf.heap item parent g prev x hxg
          (fun pg hp e => hprev pg hp (e ▸ hmemR x hx))

theorem save_items_cons_assemble (strict : Bool) (maxD parent level : Nat)
    (item : OutlineItem) (rest : List OutlineItem) (pdf : Pdf) (visited : List Nat)
    (count : Int) (prev first : Option Nat) (g : Nat)
    (hobj : item.obj = some g)
    (hnp : ∀ n, item.destination ≠ some (.page n))
    (hdok : (item.destination ≠ none ∨ item.action ≠ none) ∨
      ((pdf.heap g).dest = none ∧ (pdf.heap g).a = none))
    (hnd : (idsTr maxD level (item :: rest)).Nodup)
    (hvis : ∀ x, x ∈ idsTr maxD level (item :: rest) → visited.contains x = false)
    (hpar : parent ∉ idsTr maxD level (item :: rest))
    (hprev : ∀ pg, prev = some pg → pg ∉ idsTr maxD level (item :: rest))
    (hQ : SaveLevelSpec strict maxD g (level + 1)
      (if level < maxD then item.children else [])
      { pdf with heap := heap4 pdf.heap item parent g prev } (g :: visited))
    (hT : SaveItemsSpec strict maxD parent level rest
      (pdf5Of (save_level strict maxD g (level + 1)
          (if level < maxD then item.children else [])
          { pdf with heap := heap4 pdf.heap item parent g prev } (g :: visited))
        g item.is_closed)
      (save_level strict maxD g (level + 1)
        (if level < maxD then item.children else [])
        { pdf with heap := heap4 pdf.heap item parent g prev } (g :: visited)).visited
      (count2Of (save_level strict maxD g (level + 1)
          (if level < maxD then item.children else [])
          { pdf with heap := heap4 pdf.heap item parent g prev } (g :: visited))
        g item.is_closed count)
      (some g) (firstUpd prev (item :: rest) first)) :
    SaveItemsSpec strict maxD parent level (item :: rest) pdf visited count prev first := by
  simp only [SaveLevelSpec] at hQ
  obtain ⟨hQerr, hQitems, hQvis, hQframe, hQparent, hQnodes, hQnid, hQnp, hQro⟩ := hQ
  set lr : LevelRes := save_level strict maxD g (level + 1)
    (if level < maxD then item.children else [])
    { pdf with heap := heap4 pdf.heap item parent g prev } (g :: visited) with hlrdef
  cases hcl : item.is_closed
  · simp only [hcl, pdf5Of, count2Of, Bool.false_eq_true, if_false] at hT
    refine save_items_glue strict maxD parent level item rest pdf visited count prev
      first g lr lr.pdf (count + 1 + ((lr.pdf.heap g).count.getD 0))
      hobj hnp hnd hvis hpar hprev hlrdef.symm hQerr hQitems hQvis hQframe
      hQnodes hQnid hQnp hQro ?_ (fun x _ => rfl) rfl rfl rfl ?_ ?_ hT
    · simp only [hcl, Bool.false_eq_true, if_false]
      exact hQparent
    · simp only [hcl, Bool.false_eq_true, if_false]
      rw [hQparent]
      simp
    · simp only [hcl, Bool.false_eq_true, if_false]
  · simp only [hcl, pdf5Of, count2Of, if_true] at hT
    refine save_items_glue strict maxD parent level item rest pdf visited count prev
      first g lr
      { lr.pdf with heap := hupd lr.pdf.heap g (fun d => { d with count := some (-(d.count.getD 0)) }) }
      (count + 1)
      hobj hnp hnd hvis hpar hprev hlrdef.symm hQerr hQitems hQvis hQframe
      hQnodes hQnid hQnp hQro ?_ ?_ rfl rfl rfl ?_ ?_ hT
    · simp only []
      rw [hupd_same, hQparent]
      simp [hcl]
    · intro x hx
      simp only []
      exact hupd_other _ _ _ _ hx
    · simp [hcl]
    · simp only [hcl, if_true]

mutual

theorem save_items_spec (strict : Bool) (maxD parent level : Nat)
    (F : List OutlineItem) (pdf : Pdf) (visited : List Nat)
    (count : Int) (prev first : Option Nat)
    (hpre : preChain pdf.heap maxD level F = true)
    (hnd : (idsTr maxD level F).Nodup)
    (hvis : ∀ x, x ∈ idsTr maxD level F → visited.contains x = false)
    (hpar : parent ∉ idsTr maxD level F)
    (hprev : ∀ pg, prev = some pg → pg ∉ idsTr maxD level F) :
    SaveItemsSpec strict maxD parent level F pdf visited count prev first := by
  match F with
  | [] =>
    simp only [SaveItemsSpec]
    rw [save_items_nil]
    refine ⟨rfl, rfl, by simp [idsTr], by simp [levelCount], rfl, ?_,
      fun x _ _ => rfl, ?_, nodesW_nil _ _ _ _ _ _ _, rfl, rfl, rfl⟩
    · cases prev <;> rfl
    · intro pg hp
      rfl
  | item :: rest =>
    obtain ⟨g, hobj, hnp, hdok, hpreK, hpreR⟩ :=
      preChain_cons pdf.heap maxD level item rest hpre
    have hgmem : g ∈ idsTr maxD level (item :: rest) :=
      (mem_idsTr_cons maxD level item rest g g hobj).2 (Or.inl rfl)
    obtain ⟨hgK, hgR, hndK, hndR, hdisjKR⟩ :=
      idsTr_cons_nodup maxD level item rest g hobj hnd
    have hvg : visited.contains g = false := hvis g hgmem
    have hpgg : ∀ pg, prev = some pg → pg ≠ g :=
      fun pg hp he => hprev pg hp (he ▸ hgmem)
    have hmemK : ∀ x, x ∈ idsTr maxD (level + 1) (if level < maxD then item.children else []) →
        x ∈ idsTr maxD level (item :: rest) :=
      fun x hx => (mem_idsTr_cons maxD level item rest g x hobj).2 (Or.inr (Or.inl hx))
    have hmemR : ∀ x, x ∈ idsTr maxD level rest → x ∈ idsTr maxD level (item :: rest) :=
      fun x hx => (mem_idsTr_cons maxD level item rest g x hobj).2 (Or.inr (Or.inr hx))
    -- the per-item writes before the child recursion, and the child call
    have hQ := save_level_spec strict maxD g (level + 1)
      (if level < maxD then item.children else [])
      { pdf with heap := heap4 pdf.heap item parent g prev } (g :: visited)
      (by
        rw [← hpreK]
        exact (preChain_congr maxD _ pdf.heap (level + 1) _
          (fun x hx => heap4_frame pdf.heap item parent g prev x
            (fun e => hgK (e ▸ hx))
            (fun pg hp e => hprev pg hp (e ▸ hmemK x hx)))).symm ▸ rfl)
      hndK
      (by
        intro x hx
        rw [contains_false_iff]
        simp only [List.mem_cons, not_or]
        exact ⟨fun e => hgK (e ▸ hx),
          (contains_false_iff visited x).1 (hvis x (hmemK x hx))⟩)
      hgK
    have hQ' := hQ
    simp only [SaveLevelSpec] at hQ'
    obtain ⟨hQerr, hQitems, hQvis, hQframe, hQparent, hQnodes, hQnid, hQnp, hQro⟩ := hQ'
    -- frame of the loop body plus the child level, seen from the rest ids
    have hframeR : ∀ x, x ∈ idsTr maxD level rest →
        (save_level strict maxD g (level + 1)
          (if level < maxD then item.children else [])
          { pdf with heap := heap4 pdf.heap item parent g prev } (g :: visited)).pdf.heap x
          = pdf.heap x := by
      intro x hx
      have hxg : x ≠ g := fun e => hgR (e ▸ hx)
      rw [hQframe x (fun hk => hdisjKR x hk hx) hxg]
      exact heap4_frame pdf.heap item parent g prev x hxg
        (fun pg hp e => hprev pg hp (e ▸ hmemR x hx))
    have hframeR5 : ∀ x, x ∈ idsTr maxD level rest →
        (pdf5Of (save_level strict maxD g (level + 1)
            (if level < maxD then item.children else [])
            { pdf with heap := heap4 pdf.heap item parent g prev } (g :: visited))
          g item.is_closed).heap x = pdf.heap x := by
      intro x hx
      have hxg : x ≠ g := fun e => hgR (e ▸ hx)
      cases hcl : item.is_closed
      · simp only [pdf5Of, Bool.false_eq_true, if_false]
        exact hframeR x hx
      · simp only [pdf5Of, if_true]
        rw [hupd_other _ _ _ _ hxg]
        exact hframeR x hx
    have hT := save_items_spec strict maxD parent level rest
      (pdf5Of (save_level strict maxD g (level + 1)
          (if level < maxD then item.children else [])
          { pdf with heap := heap4 pdf.heap item parent g prev } (g :: visited))
        g item.is_closed)
      (save_level strict maxD g (level + 1)
        (if level < maxD then item.children else [])
        { pdf with heap := heap4 pdf.heap item parent g prev } (g :: visited)).visited
      (count2Of (save_level strict maxD g (level + 1)
          (if level < maxD then item.children else [])
          { pdf with heap := heap4 pdf.heap item parent g prev } (g :: visited))
        g item.is_closed count)
      (some g) (firstUpd prev (item :: rest) first)
      (by
        rw [← hpreR]
        exact (preChain_congr maxD _ pdf.heap level rest hframeR5).symm ▸ rfl)
      hndR
      (by
        intro x hx
        rw [hQvis, contains_false_iff]
        simp only [List.mem_append, List.mem_reverse, List.mem_cons, not_or]
        exact ⟨fun hk => hdisjKR x hk hx, fun e => hgR (e ▸ hx),
          (contains_false_iff visited x).1 (hvis x (hmemR x hx))⟩)
      (fun hx => hpar (hmemR parent hx))
      (by
        intro pg hp hx
        cases hp
        exact hgR hx)
    exact save_items_cons_assemble strict maxD parent level item rest pdf visited
      count prev first g hobj hnp hdok hnd hvis hpar hprev hQ hT
termination_by (sizeL F, 0)
decreasing_by
  all_goals first
    | (apply Prod.Lex.left
       simp only [sizeL]
       (try split) <;> (try simp only [sizeL]) <;> omega)
    | (apply Prod.Lex.right
       omega)

theorem save_level_spec (strict : Bool) (maxD parent level : Nat)
    (F : List OutlineItem) (pdf : Pdf) (visited : List Nat)
    (hpre : preChain pdf.heap maxD level F = true)
    (hnd : (idsTr maxD level F).Nodup)
    (hvis : ∀ x, x ∈ idsTr maxD level F → visited.contains x = false)
    (hpar : parent ∉ idsTr maxD level F) :
    SaveLevelSpec strict maxD parent level F pdf visited := by
  have hP := save_items_spec strict maxD parent level F pdf visited 0 none none
    hpre hnd hvis hpar (by intro pg hp; cases hp)
  simp only [SaveItemsSpec] at hP
  obtain ⟨herr, hitems, hvisP, hcount, hprevP, hfirstP, hframe, hprevw, hnodes,
    hnid, hnpg, hro⟩ := hP
  simp only [SaveLevelSpec]
  rw [save_level]
  simp only [herr]
  match F, hpre, hnd, hvis, hpar, herr, hitems, hvisP, hcount, hprevP, hfirstP, hframe, hprevw, hnodes, hnid, hnpg, hro with
  | [], hpre, hnd, hvis, hpar, herr, hitems, hvisP, hcount, hprevP, hfirstP, hframe, hprevw, hnodes, hnid, hnpg, hro =>
    rw [save_items_nil] at hnid hnpg hro ⊢
    simp only [ne_eq, not_true_eq_false, if_false]
    refine ⟨trivial, trivial, by simp [idsTr], ?_, ?_, nodesW_nil _ _ _ _ _ _ _,
      trivial, trivial, trivial⟩
    · intro x hx hxp
      rw [hupd_other _ _ _ _ hxp, hupd_other _ _ _ _ hxp]
    · rw [hupd_same, hupd_same]
      simp [headObj, lastObj, levelCount]
  | i :: r, hpre, hnd, hvis, hpar, herr, hitems, hvisP, hcount, hprevP, hfirstP, hframe, hprevw, hnodes, hnid, hnpg, hro =>
    obtain ⟨gl, hgl⟩ := preChain_lastObj pdf.heap maxD level i r hpre
    have hglmem := lastObj_mem_idsTr maxD level (i :: r) gl hgl
    have hpne : parent ≠ gl := fun e => hpar (e ▸ hglmem)
    have hcpos := levelCount_pos maxD level i r
    have hcne : (save_items strict maxD parent level (i :: r) pdf visited 0 none none).count ≠ 0 := by
      rw [hcount]
      omega
    rw [if_pos hcne]
    rw [lastOr] at hprevP
    rw [hgl] at hprevP
    simp only [hprevP]
    refine ⟨trivial, hitems, hvisP, ?_, ?_, ?_, hnid, hnpg, hro⟩
    · intro x hx hxp
      have hxgl : x ≠ gl := fun e => hx (e ▸ hglmem)
      rw [hupd_other _ _ _ _ hxp, hupd_other _ _ _ _ hxp, hupd_other _ _ _ _ hxgl,
        hframe x hx (fun pg hp => by cases hp)]
    · rw [hupd_same, hupd_same, hupd_other _ _ _ _ hpne,
        hframe parent hpar (fun pg hp => by cases hp), hfirstP, hcount, hgl]
      simp [firstUpd, headObj]
    · have step1 := nodesW_set_last_next pdf.heap
        (save_items strict maxD parent level (i :: r) pdf visited 0 none none).pdf.heap
        maxD level parent none (lastNextVal pdf.heap (i :: r)) (i :: r) gl hgl hnd hnodes
      refine nodesW_congr maxD pdf.heap pdf.heap _ _ level parent none none (i :: r)
        (fun x _ => rfl) ?_ step1
      intro x hx
      have hxp : x ≠ parent := fun e => hpar (e ▸ hx)
      rw [hupd_other _ _ _ _ hxp, hupd_other _ _ _ _ hxp]
termination_by (sizeL F, 1)
decreasing_by
  exact Prod.Lex.right _ (Nat.lt_succ_self 0)

end
theorem repChain_cons (h : Heap) (maxD level : Nat) (start : Option Nat)
    (i : OutlineItem) (r : List OutlineItem)
    (hrc : repChain h maxD level start (i :: r) = true) :
    ∃ g, i.obj = some g ∧ start = some g ∧
      (h g).title = some i.title ∧
      i.destination = (h g).dest.map ODest.val ∧
      i.action = (h g).a ∧
      ((h g).dest.isSome && (h g).a.isSome) = false ∧
      i.page_location = none ∧
      i.page_location_kwargs = [] ∧
      (match (h g).first, decide (level < maxD) with
       | some fc, true =>
         repChain h maxD (level + 1) (some fc) i.children &&
           (i.is_closed == (match (h g).count with
                            | some c => decide (c ≠ 0 ∧ c < 0)
                            | none => false))
       | _, _ => i.children.isEmpty && i.is_closed == false) = true ∧
      repChain h maxD level ((h g).next) r = true := by
  rw [repChain] at hrc
  match hobj : i.obj with
  | none => rw [hobj] at hrc; cases hrc
  | some g =>
    rw [hobj] at hrc
    simp only [Bool.and_eq_true, beq_iff_eq, Bool.not_eq_true',
      Bool.and_eq_false_iff] at hrc
    obtain ⟨⟨⟨⟨⟨⟨⟨⟨hstart, htitle⟩, hdest⟩, hact⟩, hexcl⟩, hploc⟩, hkw⟩, hmatch⟩, hrest⟩ := hrc
    refine ⟨g, rfl, hstart, htitle, hdest, hact, ?_, hploc, hkw, hmatch, hrest⟩
    cases hd : (h g).dest <;> cases ha : (h g).a <;> simp_all
theorem repChain_preChain (h : Heap) (maxD : Nat) :
    ∀ (level : Nat) (start : Option Nat) (F : List OutlineItem),
      repChain h maxD level start F = true →
      preChain h maxD level F = true := by
  intro level start F hrc
  match F with
  | [] => simp [preChain]
  | i :: r =>
    obtain ⟨g, hobj, hstart, htitle, hdest, hact, hexcl, hploc, hkw, hmatch, hrest⟩ :=
      repChain_cons h maxD level start i r hrc
    rw [preChain, hobj]
    simp only [Bool.and_eq_true]
    refine ⟨⟨?_, ?_⟩, repChain_preChain h maxD level ((h g).next) r hrest⟩
    · match hd : i.destination, ha : i.action with
      | some (.val v), none => rfl
      | none, some a => rfl
      | none, none =>
        rw [hd] at hdest
        rw [ha] at hact
        cases hgd : (h g).dest with
        | some v => rw [hgd] at hdest; cases hdest
        | none =>
          simp only [Bool.and_eq_true, beq_iff_eq]
          exact ⟨trivial, hact.symm⟩
      | some (.page n), ha2 =>
        rw [hd] at hdest
        cases hgd : (h g).dest with
        | none => rw [hgd] at hdest; cases hdest
        | some v => rw [hgd] at hdest; cases hdest
      | some (.val v), some a =>
        rw [hd] at hdest
        rw [ha] at hact
        cases hgd : (h g).dest with
        | none => rw [hgd] at hdest; cases hdest
        | some w =>
          rw [hgd] at hexcl
          cases hga : (h g).a with
          | none => rw [hga] at hact; cases hact
          | some b => rw [hga] at hexcl; cases hexcl
    · split
      · next hlt =>
        have hdec : decide (level < maxD) = true := by simp [hlt]
        cases hf : (h g).first with
        | some fc =>
          rw [hf, hdec] at hmatch
          simp only [Bool.and_eq_true] at hmatch
          exact repChain_preChain h maxD (level + 1) (some fc) i.children hmatch.1
        | none =>
          rw [hf, hdec] at hmatch
          simp only [Bool.and_eq_true, List.isEmpty_iff] at hmatch
          rw [hmatch.1]
          simp [preChain]
      · rfl
termination_by level start F _ => sizeL F
decreasing_by
  all_goals (simp only [sizeL]; try split) <;> (try simp only [sizeL]) <;> omega
theorem load_chain_rep (strict : Bool) (maxD : Nat) (pdf : Pdf) :
    ∀ (level : Nat) (F : List OutlineItem) (start fuel : Nat) (visited : List Nat),
      repChain pdf.heap maxD level (some start) F = true →
      (idsTr maxD level F).Nodup →
      (∀ x, x ∈ idsTr maxD level F → visited.contains x = false) →
      sizeL F ≤ fuel →
      load_chain strict maxD pdf fuel start level visited =
        some (F, (idsTr maxD level F).reverse ++ visited, none) := by
  intro level F start fuel visited hrc hnd hvis hfuel
  match F with
  | [] => exact absurd hrc (by simp [repChain])
  | i :: r =>
    obtain ⟨g, hobj, hstart, htitle, hdest, hact, hexcl, hploc, hkw, hmatch, hrest⟩ :=
      repChain_cons pdf.heap maxD level (some start) i r hrc
    rw [Option.some.inj hstart]
    have hgmem : g ∈ idsTr maxD level (i :: r) :=
      (mem_idsTr_cons maxD level i r g g hobj).2 (Or.inl rfl)
    obtain ⟨hgK, hgR, hndK, hndR, hdisjKR⟩ := idsTr_cons_nodup maxD level i r g hobj hnd
    have hmemK : ∀ x, x ∈ idsTr maxD (level + 1) (if level < maxD then i.children else []) →
        x ∈ idsTr maxD level (i :: r) :=
      fun x hx => (mem_idsTr_cons maxD level i r g x hobj).2 (Or.inr (Or.inl hx))
    have hmemR : ∀ x, x ∈ idsTr maxD level r → x ∈ idsTr maxD level (i :: r) :=
      fun x hx => (mem_idsTr_cons maxD level i r g x hobj).2 (Or.inr (Or.inr hx))
    have hvg : visited.contains g = false := hvis g hgmem
    match fuel, hfuel with
    | 0, hfuel =>
      exfalso
      simp only [sizeL] at hfuel
      omega
    | fuel + 1, hfuel =>
    -- the trailing-sibling call, for any continuation of the visited set
    have hrcall : ∀ g2 vis2, (pdf.heap g).next = some g2 →
        (∀ x, x ∈ idsTr maxD level r → vis2.contains x = false) →
        load_chain strict maxD pdf fuel g2 level vis2 =
          some (r, (idsTr maxD level r).reverse ++ vis2, none) := by
      intro g2 vis2 hnx hvis2
      refine load_chain_rep strict maxD pdf level r g2 fuel vis2 ?_ hndR hvis2 ?_
      · rw [← hnx]
        exact hrest
      · simp only [sizeL] at hfuel
        omega
    -- the child-chain call
    have hkcall : ∀ fc, (pdf.heap g).first = some fc → level < maxD →
        repChain pdf.heap maxD (level + 1) (some fc) i.children = true →
        load_chain strict maxD pdf fuel fc (level + 1) (g :: visited) =
          some (i.children, (idsTr maxD (level + 1) i.children).reverse ++ (g :: visited), none) := by
      intro fc hf hlt hkidrep
      refine load_chain_rep strict maxD pdf (level + 1) i.children fc fuel
        (g :: visited) hkidrep (by rw [if_pos hlt] at hndK; exact hndK) ?_ ?_
      · intro x hx
        have hxK : x ∈ idsTr maxD (level + 1) (if level < maxD then i.children else []) := by
          rw [if_pos hlt]
          exact hx
        rw [contains_false_iff]
        simp only [List.mem_cons, not_or]
        exact ⟨fun e => hgK (e ▸ hxK),
          (contains_false_iff visited x).1 (hvis x (hmemK x hxK))⟩
      · simp only [sizeL] at hfuel
        omega
    rw [load_chain]
    simp only [hvg, Bool.false_eq_true, if_false, OutlineItem.from_dictionary_object, htitle]
    by_cases hlt : level < maxD
    · have hdec : decide (level < maxD) = true := by simp [hlt]
      cases hf : (pdf.heap g).first with
      | some fc =>
        rw [hf, hdec] at hmatch
        simp only [Bool.and_eq_true, beq_iff_eq] at hmatch
        obtain ⟨hkidrep, hflag⟩ := hmatch
        rw [hdec]
        simp only [hkcall fc hf hlt hkidrep]
        cases r with
        | nil =>
          have hnext : (pdf.heap g).next = none := by
            rw [repChain] at hrest
            exact beq_iff_eq.1 hrest
          rw [hnext]
          simp only [Option.some.injEq, Prod.mk.injEq]
          refine ⟨?_, ?_, trivial⟩
          · obtain ⟨ti, de, pl, kw, ac, ob, ic, ch⟩ := i
            simp only at hdest hact hploc hkw hobj hflag
            simp [hdest, hact, hploc, hkw, hobj, hflag]
          · simp [idsTr_cons, hobj, hlt, idsTr, List.reverse_append, List.append_assoc]
        | cons j r' =>
          obtain ⟨g2, hobj2, hstart2, -⟩ :=
            repChain_cons pdf.heap maxD level ((pdf.heap g).next) j r' hrest
          rw [hstart2]
          have hvis2A : ∀ x, x ∈ idsTr maxD level (j :: r') →
              ((idsTr maxD (level + 1) i.children).reverse ++ g :: visited).contains x = false := by
            intro x hx
            rw [contains_false_iff]
            simp only [List.mem_append, List.mem_reverse, List.mem_cons, not_or]
            exact ⟨fun hk => hdisjKR x (by rw [if_pos hlt]; exact hk) hx,
              fun e => hgR (e ▸ hx),
              (contains_false_iff visited x).1 (hvis x (hmemR x hx))⟩
          simp only [hrcall g2 _ hstart2 hvis2A]
          simp only [Option.some.injEq, Prod.mk.injEq]
          refine ⟨?_, ?_, trivial⟩
          · obtain ⟨ti, de, pl, kw, ac, ob, ic, ch⟩ := i
            simp only at hdest hact hploc hkw hobj hflag
            simp [hdest, hact, hploc, hkw, hobj, hflag]
          · simp [idsTr_cons, hobj, hlt, List.reverse_append, List.append_assoc]
      | none =>
        rw [hf, hdec] at hmatch
        simp only [Bool.and_eq_true, List.isEmpty_iff, beq_iff_eq] at hmatch
        obtain ⟨hch, hic⟩ := hmatch
        rw [hdec]
        simp only []
        cases r with
        | nil =>
          have hnext : (pdf.heap g).next = none := by
            rw [repChain] at hrest
            exact beq_iff_eq.1 hrest
          rw [hnext]
          simp only [Option.some.injEq, Prod.mk.injEq]
          refine ⟨?_, ?_, trivial⟩
          · obtain ⟨ti, de, pl, kw, ac, ob, ic, ch⟩ := i
            simp only at hdest hact hploc hkw hobj hic hch
            simp [hdest, hact, hploc, hkw, hobj, hic, hch]
          · simp [idsTr_cons, hobj, hch, idsTr]
        | cons j r' =>
          obtain ⟨g2, hobj2, hstart2, -⟩ :=
            repChain_cons pdf.heap maxD level ((pdf.heap g).next) j r' hrest
          rw [hstart2]
          have hvis2B : ∀ x, x ∈ idsTr maxD level (j :: r') →
              (g :: visited).contains x = false := by
            intro x hx
            rw [contains_false_iff]
            simp only [List.mem_cons, not_or]
            exact ⟨fun e => hgR (e ▸ hx),
              (contains_false_iff visited x).1 (hvis x (hmemR x hx))⟩
          simp only [hrcall g2 _ hstart2 hvis2B]
          simp only [Option.some.injEq, Prod.mk.injEq]
          refine ⟨?_, ?_, trivial⟩
          · obtain ⟨ti, de, pl, kw, ac, ob, ic, ch⟩ := i
            simp only at hdest hact hploc hkw hobj hic hch
            simp [hdest, hact, hploc, hkw, hobj, hic, hch]
          · simp [idsTr_cons, hobj, hch, idsTr, List.append_assoc]
    · have hdec : decide (level < maxD) = false := by simp [hlt]
      rw [hdec] at hmatch
      have hmatch2 : (i.children.isEmpty && (i.is_closed == false)) = true := by
        cases hf : (pdf.heap g).first <;> rw [hf] at hmatch <;> exact hmatch
      simp only [Bool.and_eq_true, List.isEmpty_iff, beq_iff_eq] at hmatch2
      obtain ⟨hch, hic⟩ := hmatch2
      cases hf : (pdf.heap g).first <;> rw [hdec] <;> simp only [] <;>
        cases r with
        | nil =>
          have hnext : (pdf.heap g).next = none := by
            rw [repChain] at hrest
            exact beq_iff_eq.1 hrest
          rw [hnext]
          simp only [Option.some.injEq, Prod.mk.injEq]
          refine ⟨?_, ?_, trivial⟩
          · obtain ⟨ti, de, pl, kw, ac, ob, ic, ch⟩ := i
            simp only at hdest hact hploc hkw hobj hic hch
            simp [hdest, hact, hploc, hkw, hobj, hic, hch]
          · simp [idsTr_cons, hobj, hch, hlt, idsTr]
        | cons j r' =>
          obtain ⟨g2, hobj2, hstart2, -⟩ :=
            repChain_cons pdf.heap maxD level ((pdf.heap g).next) j r' hrest
          rw [hstart2]
          have hvis2B : ∀ x, x ∈ idsTr maxD level (j :: r') →
              (g :: visited).contains x = false := by
            intro x hx
            rw [contains_false_iff]
            simp only [List.mem_cons, not_or]
            exact ⟨fun e => hgR (e ▸ hx),
              (contains_false_iff visited x).1 (hvis x (hmemR x hx))⟩
          simp only [hrcall g2 _ hstart2 hvis2B]
          simp only [Option.some.injEq, Prod.mk.injEq]
          refine ⟨?_, ?_, trivial⟩
          · obtain ⟨ti, de, pl, kw, ac, ob, ic, ch⟩ := i
            simp only at hdest hact hploc hkw hobj hic hch
            simp [hdest, hact, hploc, hkw, hobj, hic, hch]
          · simp [idsTr_cons, hobj, hch, hlt, idsTr, List.append_assoc]
termination_by level F start fuel visited _ _ _ _ => sizeL F
decreasing_by
  all_goals (simp only [sizeL]; try split) <;> (try simp only [sizeL]) <;> omega
theorem truncF_cons (maxD level : Nat) (i : OutlineItem) (r : List OutlineItem) :
    truncF maxD level (i :: r) =
      (if level < maxD then
        { i with children := truncF maxD (level + 1) i.children,
                 is_closed := if i.children.isEmpty then false else i.is_closed,
                 page_location := none, page_location_kwargs := [] }
       else
        { i with children := [], is_closed := false,
                 page_location := none, page_location_kwargs := [] })
      :: truncF maxD level r := by
  simp [truncF]

theorem headObj_truncF (maxD level : Nat) (F : List OutlineItem) :
    headObj (truncF maxD level F) = headObj F := by
  cases F with
  | nil => simp [truncF, headObj]
  | cons i r =>
    rw [truncF_cons]
    split <;> simp [headObj]

theorem idsTr_truncF (maxD : Nat) : ∀ (level : Nat) (F : List OutlineItem),
    idsTr maxD level (truncF maxD level F) = idsTr maxD level F := by
  intro level F
  match F with
  | [] => simp [truncF, idsTr]
  | i :: r =>
    rw [truncF_cons, idsTr_cons, idsTr_cons]
    by_cases hlt : level < maxD
    · rw [if_pos hlt]
      simp only [if_pos hlt]
      rw [idsTr_truncF maxD (level + 1) i.children, idsTr_truncF maxD level r]
    · rw [if_neg hlt]
      simp only [if_neg hlt]
      rw [idsTr_truncF maxD level r]
termination_by level F => sizeL F
decreasing_by
  all_goals (simp only [sizeL]; try split) <;> (try simp only [sizeL]) <;> omega

theorem sizeL_truncF_le (maxD : Nat) : ∀ (level : Nat) (F : List OutlineItem),
    sizeL (truncF maxD level F) ≤ sizeL F := by
  intro level F
  match F with
  | [] => simp [truncF]
  | i :: r =>
    rw [truncF_cons]
    have hr := sizeL_truncF_le maxD level r
    by_cases hlt : level < maxD
    · rw [if_pos hlt]
      have hk := sizeL_truncF_le maxD (level + 1) i.children
      simp only [sizeL]
      omega
    · rw [if_neg hlt]
      simp only [sizeL]
      omega
termination_by level F => sizeL F
decreasing_by
  all_goals (simp only [sizeL]; try split) <;> (try simp only [sizeL]) <;> omega

theorem truncF_of_repChain (h : Heap) (maxD : Nat) :
    ∀ (level : Nat) (start : Option Nat) (F : List OutlineItem),
      repChain h maxD level start F = true →
      truncF maxD level F = F := by
  intro level start F hrc
  match F with
  | [] => simp [truncF]
  | i :: r =>
    obtain ⟨g, hobj, hstart, htitle, hdest, hact, hexcl, hploc, hkw, hmatch, hrest⟩ :=
      repChain_cons h maxD level start i r hrc
    rw [truncF_cons, truncF_of_repChain h maxD level ((h g).next) r hrest]
    have hhead : (if level < maxD then
        { i with children := truncF maxD (level + 1) i.children,
                 is_closed := if i.children.isEmpty then false else i.is_closed,
                 page_location := none, page_location_kwargs := [] }
       else
        { i with children := [], is_closed := false,
                 page_location := none, page_location_kwargs := [] }) = i := by
      by_cases hlt : level < maxD
      · rw [if_pos hlt]
        have hdec : decide (level < maxD) = true := by simp [hlt]
        cases hf : (h g).first with
        | some fc =>
          rw [hf, hdec] at hmatch
          simp only [Bool.and_eq_true, beq_iff_eq] at hmatch
          obtain ⟨hkidrep, hflag⟩ := hmatch
          have hchne : i.children ≠ [] := by
            intro he
            rw [he] at hkidrep
            simp [repChain] at hkidrep
          rw [truncF_of_repChain h maxD (level + 1) (some fc) i.children hkidrep]
          obtain ⟨ti, de, pl, kw, ac, ob, ic, ch⟩ := i
          simp only at hploc hkw hchne
          simp [hploc, hkw, List.isEmpty_iff, hchne]
        | none =>
          rw [hf, hdec] at hmatch
          simp only [Bool.and_eq_true, List.isEmpty_iff, beq_iff_eq] at hmatch
          obtain ⟨hch, hic⟩ := hmatch
          obtain ⟨ti, de, pl, kw, ac, ob, ic, ch⟩ := i
          simp only at hploc hkw hch hic
          simp [hploc, hkw, hch, hic, truncF]
      · rw [if_neg hlt]
        have hdec : decide (level < maxD) = false := by simp [hlt]
        rw [hdec] at hmatch
        have hmatch2 : (i.children.isEmpty && (i.is_closed == false)) = true := by
          cases hf : (h g).first <;> rw [hf] at hmatch <;> exact hmatch
        simp only [Bool.and_eq_true, List.isEmpty_iff, beq_iff_eq] at hmatch2
        obtain ⟨hch, hic⟩ := hmatch2
        obtain ⟨ti, de, pl, kw, ac, ob, ic, ch⟩ := i
        simp only at hploc hkw hch hic
        simp [hploc, hkw, hch, hic]
    rw [hhead]
termination_by level start F _ => sizeL F
decreasing_by
  all_goals (simp only [sizeL]; try split) <;> (try simp only [sizeL]) <;> omega
theorem preChain_dest_cases (h : Heap) (maxD level : Nat) (i : OutlineItem)
    (r : List OutlineItem) (hp : preChain h maxD level (i :: r) = true) :
    ∃ g, i.obj = some g ∧
      ((∃ v, i.destination = some (.val v) ∧ i.action = none) ∨
       (i.destination = none ∧ ∃ a, i.action = some a) ∨
       (i.destination = none ∧ i.action = none ∧ (h g).dest = none ∧ (h g).a = none)) ∧
      preChain h maxD (level + 1) (if level < maxD then i.children else []) = true ∧
      preChain h maxD level r = true := by
  rw [preChain] at hp
  match hobj : i.obj with
  | none => rw [hobj] at hp; cases hp
  | some g =>
    rw [hobj] at hp
    simp only [Bool.and_eq_true] at hp
    obtain ⟨⟨hdok, hkids⟩, hrest⟩ := hp
    refine ⟨g, rfl, ?_, ?_, hrest⟩
    · match hd : i.destination, ha : i.action with
      | some (.val v), none => exact Or.inl ⟨v, rfl, rfl⟩
      | none, some a => exact Or.inr (Or.inl ⟨rfl, a, rfl⟩)
      | none, none =>
        rw [hd, ha] at hdok
        simp only [Bool.and_eq_true, beq_iff_eq] at hdok
        exact Or.inr (Or.inr ⟨rfl, rfl, hdok⟩)
      | some (.page n), ha2 =>
        rw [hd] at hdok
        cases ha3 : i.action <;> rw [ha3] at hdok <;> cases hdok
      | some (.val v), some a => rw [hd, ha] at hdok; cases hdok
    · split
      · next hlt => rw [if_pos hlt] at hkids; exact hkids
      · simp [preChain]
theorem repChain_post (pre post : Heap) (maxD : Nat) :
    ∀ (level p : Nat) (prevId : Option Nat) (F : List OutlineItem),
      preChain pre maxD level F = true →
      nodesW pre post maxD level p prevId none F →
      repChain post maxD level (headObj F) (truncF maxD level F) = true := by
  intro level p prevId F hpre hW
  match F with
  | [] => simp [truncF, headObj, repChain]
  | i :: r =>
    obtain ⟨g, hobj, hcases, hpreK, hpreR⟩ := preChain_dest_cases pre maxD level i r hpre
    obtain ⟨g2, hobj2, hpost, hkids, hrest⟩ := (nodesW_cons _ _ _ _ _ _ _ _ _).1 hW
    have hg2 : g2 = g := by
      rw [hobj] at hobj2
      exact (Option.some.inj hobj2).symm
    rw [hg2] at hpost hkids hrest
    have hrestG : repChain post maxD level ((post g).next) (truncF maxD level r) = true := by
      rw [hpost]
      simp only [nodeAfter]
      have hrec := repChain_post pre post maxD level p (some g) r hpreR hrest
      cases r with
      | nil => simp [truncF, repChain, nextOf]
      | cons j r' => simpa [headObj, nextOf] using hrec
    have hdestG : (i.destination == (post g).dest.map ODest.val) = true ∧
        (i.action == (post g).a) = true ∧
        (!((post g).dest.isSome && (post g).a.isSome)) = true := by
      rw [hpost]
      simp only [nodeAfter]
      rcases hcases with ⟨v, hd, ha⟩ | ⟨hd, a, ha⟩ | ⟨hd, ha, hpd, hpa⟩ <;>
        simp [destAfter, aAfter, hd, ha] <;> simp [hpd, hpa]
    obtain ⟨hdG, haG, hexG⟩ := hdestG
    have htitleG : ((post g).title == some i.title) = true := by
      rw [hpost]
      simp [nodeAfter]
    rw [truncF_cons]
    by_cases hlt : level < maxD
    · rw [if_pos hlt]
      rw [repChain]
      simp only [headObj, hobj]
      simp only [Bool.and_eq_true]
      refine ⟨⟨⟨⟨⟨⟨⟨⟨by simp, htitleG⟩, hdG⟩, haG⟩, ?_⟩, by simp⟩, by simp⟩, ?_⟩, hrestG⟩
      · simp only [Bool.not_eq_true'] at hexG
        simp [hexG]
      · -- the child-linkage and closed-flag component
        rw [if_pos hlt] at hpreK
        simp only [if_pos hlt] at hkids
        have hrecK := repChain_post pre post maxD (level + 1) g none i.children hpreK hkids
        cases hch : i.children with
        | nil =>
          rw [hch] at hpreK hkids hpost
          have hfst : (post g).first = none := by
            rw [hpost]
            simp [nodeAfter, hlt, headObj]
          rw [hfst]
          have hdec : decide (level < maxD) = true := by simp [hlt]
          rw [hdec]
          simp [truncF]
        | cons c cs =>
          rw [hch] at hpreK hkids hpost hrecK
          obtain ⟨gc, hobjc, -⟩ := preChain_dest_cases pre maxD (level + 1) c cs hpreK
          have hfst : (post g).first = some gc := by
            rw [hpost]
            simp [nodeAfter, hlt, headObj, hobjc]
          rw [hfst]
          have hdec : decide (level < maxD) = true := by simp [hlt]
          rw [hdec]
          simp only [Bool.and_eq_true]
          constructor
          · simpa [headObj, hobjc] using hrecK
          · have hcnt : (post g).count =
                some (if i.is_closed then -(levelCount maxD (level + 1) (c :: cs))
                      else levelCount maxD (level + 1) (c :: cs)) := by
              rw [hpost]
              simp [nodeAfter, hlt, hch]
            rw [hcnt]
            have hpos := levelCount_pos maxD (level + 1) c cs
            cases hic : i.is_closed <;> simp [hic] <;> omega
    · rw [if_neg hlt]
      rw [repChain]
      simp only [headObj, hobj]
      simp only [Bool.and_eq_true]
      refine ⟨⟨⟨⟨⟨⟨⟨⟨by simp, htitleG⟩, hdG⟩, haG⟩, ?_⟩, by simp⟩, by simp⟩, ?_⟩, hrestG⟩
      · simp only [Bool.not_eq_true'] at hexG
        simp [hexG]
      · have hfst : (post g).first = none := by
          rw [hpost]
          simp [nodeAfter, hlt, headObj]
        rw [hfst]
        have hdec : decide (level < maxD) = false := by simp [hlt]
        rw [hdec]
        simp
termination_by level p prevId F _ _ => sizeL F
decreasing_by
  all_goals (simp only [sizeL]; try split) <;> (try simp only [sizeL]) <;> omega
theorem countsOK_of_nodesW (pre post : Heap) (maxD : Nat) :
    ∀ (level p : Nat) (prevId lastNext : Option Nat) (F : List OutlineItem),
      nodesW pre post maxD level p prevId lastNext F →
      countsOK post maxD level F = true := by
  intro level p prevId lastNext F hW
  match F with
  | [] => simp [countsOK]
  | i :: r =>
    obtain ⟨g, hobj, hpost, hkids, hrest⟩ := (nodesW_cons _ _ _ _ _ _ _ _ _).1 hW
    rw [countsOK, hobj]
    simp only [Bool.and_eq_true]
    refine ⟨⟨?_, ?_⟩,
      countsOK_of_nodesW pre post maxD level p (some g) lastNext r hrest⟩
    · rw [hpost]
      simp [nodeAfter]
    · split
      · next hlt =>
        simp only [if_pos hlt] at hkids
        exact countsOK_of_nodesW pre post maxD (level + 1) g none none i.children hkids
      · rfl
termination_by level p prevId lastNext F _ => sizeL F
decreasing_by
  all_goals (simp only [sizeL]; try split) <;> (try simp only [sizeL]) <;> omega

theorem truncSaved_of_nodesW (pre post : Heap) (maxD : Nat) :
    ∀ (level p : Nat) (prevId lastNext : Option Nat) (F : List OutlineItem),
      nodesW pre post maxD level p prevId lastNext F →
      truncSaved post maxD level F = true := by
  intro level p prevId lastNext F hW
  match F with
  | [] => simp [truncSaved]
  | i :: r =>
    obtain ⟨g, hobj, hpost, hkids, hrest⟩ := (nodesW_cons _ _ _ _ _ _ _ _ _).1 hW
    rw [truncSaved, hobj]
    simp only [Bool.and_eq_true]
    refine ⟨?_,
      truncSaved_of_nodesW pre post maxD level p (some g) lastNext r hrest⟩
    split
    · next hlt =>
      simp only [if_pos hlt] at hkids
      exact truncSaved_of_nodesW pre post maxD (level + 1) g none none i.children hkids
    · next hlt =>
      rw [hpost]
      simp [nodeAfter, headObj, lastObj, hlt]
termination_by level p prevId lastNext F _ => sizeL F
decreasing_by
  all_goals (simp only [sizeL]; try split) <;> (try simp only [sizeL]) <;> omega
theorem depthLeB_truncF (maxD : Nat) : ∀ (level : Nat) (F : List OutlineItem),
    level ≤ maxD →
    depthLeB (maxD + 1 - level) (truncF maxD level F) = true := by
  intro level F hle
  match F with
  | [] => simp [truncF, depthLeB]
  | i :: r =>
    rw [truncF_cons]
    have hrest := depthLeB_truncF maxD level r hle
    by_cases hlt : level < maxD
    · rw [if_pos hlt]
      have hk : maxD + 1 - level = (maxD + 1 - (level + 1)) + 1 := by omega
      rw [hk] at hrest ⊢
      simp only [depthLeB, Bool.and_eq_true]
      exact ⟨depthLeB_truncF maxD (level + 1) i.children hlt, hrest⟩
    · rw [if_neg hlt]
      have hk : maxD + 1 - level = 1 := by omega
      rw [hk] at hrest ⊢
      simp only [depthLeB, Bool.and_eq_true]
      exact ⟨trivial, hrest⟩
termination_by level F _ => sizeL F
decreasing_by
  all_goals (simp only [sizeL]; try split) <;> (try simp only [sizeL]) <;> omega
/-- C2: after a save of a well-formed, duplicate-free root list, every
backing `Count` equals the item's saved visible-descendant count, negated
exactly on closed items; the outline container's `Count` is the root
level's visible total; and each sibling contributes `1` plus, only when it
is open, its own subtree count to its parent's running total. -/
theorem claim_C2_counts (pdf : Pdf) (maxD : Nat) (strict upd : Bool)
    (F : List OutlineItem) (outId : Nat)
    (hro : pdf.rootOutlines = some outId)
    (hpre : preChain pdf.heap maxD 0 F = true)
    (hnd : (idsTr maxD 0 F).Nodup)
    (hout : outId ∉ idsTr maxD 0 F) :
    (Outline.save ⟨pdf, some F, maxD, strict, upd⟩).2 = none ∧
    countsOK (Outline.save ⟨pdf, some F, maxD, strict, upd⟩).1.pdfDoc.heap maxD 0 F = true ∧
    ((Outline.save ⟨pdf, some F, maxD, strict, upd⟩).1.pdfDoc.heap outId).count =
      some (levelCount maxD 0 F) ∧
    (∀ (lv : Nat) (i : OutlineItem) (rest : List OutlineItem),
      levelCount maxD lv (i :: rest) =
        1 + (if i.is_closed then 0
             else if lv < maxD then levelCount maxD (lv + 1) i.children else 0)
          + levelCount maxD lv rest) := by
  have hQ := save_level_spec strict maxD outId 0 F pdf [] hpre hnd (fun x _ => rfl) hout
  simp only [SaveLevelSpec] at hQ
  obtain ⟨hQerr, hQitems, hQvis, hQframe, hQparent, hQnodes, hQnid, hQnp, hQro⟩ := hQ
  simp only [Outline.save, hro]
  refine ⟨hQerr, ?_, ?_, fun lv i rest => levelCount_cons maxD lv i rest⟩
  · exact countsOK_of_nodesW pdf.heap _ maxD 0 outId none none F hQnodes
  · rw [hQparent]
theorem claim_C2_witness :
    (c1pdf.rootOutlines = some 10 ∧ preChain c1pdf.heap 15 0 c1items = true ∧
      (idsTr 15 0 c1items).Nodup ∧ 10 ∉ idsTr 15 0 c1items) ∧
    ((Outline.save ⟨c1pdf, some c1items, 15, false, false⟩).2 = none ∧
     countsOK (Outline.save ⟨c1pdf, some c1items, 15, false, false⟩).1.pdfDoc.heap 15 0 c1items = true ∧
     ((Outline.save ⟨c1pdf, some c1items, 15, false, false⟩).1.pdfDoc.heap 10).count =
       some (levelCount 15 0 c1items) ∧
     (∀ (lv : Nat) (i : OutlineItem) (rest : List OutlineItem),
       levelCount 15 lv (i :: rest) =
         1 + (if i.is_closed then 0
              else if lv < 15 then levelCount 15 (lv + 1) i.children else 0)
           + levelCount 15 lv rest)) :=
  ⟨⟨rfl, by simp [preChain, c1items, c1pdf, c1heap],
     by simp [idsTr, c1items], by simp [idsTr, c1items]⟩,
   claim_C2_counts c1pdf 15 false false c1items 10 rfl
     (by simp [preChain, c1items, c1pdf, c1heap])
     (by simp [idsTr, c1items]) (by simp [idsTr, c1items])⟩
/-- C1: over a duplicate-free backing structure (whose chains, by
well-formedness, already respect the depth limit), reading `root`, saving,
and reading `root` again on the saved document yields exactly the same
item sequence — same titles, same destination-or-action, same closed
flags, and recursively the same children. -/
theorem claim_C1_roundtrip (pdf : Pdf) (maxD : Nat) (strict : Bool)
    (F : List OutlineItem) (outId fuel : Nat)
    (hro : pdf.rootOutlines = some outId)
    (hrep : repChain pdf.heap maxD 0 ((pdf.heap outId).first) F = true)
    (hnd : (idsTr maxD 0 F).Nodup)
    (hout : outId ∉ idsTr maxD 0 F)
    (hfuel : sizeL F ≤ fuel) :
    Outline.rootP fuel (Outline.init pdf maxD strict) =
      some (⟨pdf, some F, maxD, strict, false⟩, .ok F) ∧
    (Outline.save ⟨pdf, some F, maxD, strict, false⟩).2 = none ∧
    (Outline.rootP fuel (Outline.init
        (Outline.save ⟨pdf, some F, maxD, strict, false⟩).1.pdfDoc maxD strict)).map
      (fun q => q.2) = some (.ok F) := by
  have hpre := repChain_preChain pdf.heap maxD 0 _ F hrep
  have hQ := save_level_spec strict maxD outId 0 F pdf [] hpre hnd (fun x _ => rfl) hout
  simp only [SaveLevelSpec] at hQ
  obtain ⟨hQerr, hQitems, hQvis, hQframe, hQparent, hQnodes, hQnid, hQnp, hQro⟩ := hQ
  have hsave : Outline.save ⟨pdf, some F, maxD, strict, false⟩ =
      (⟨(save_level strict maxD outId 0 F pdf []).pdf, some F, maxD, strict, false⟩, none) := by
    simp only [Outline.save, hro]
    rw [hQitems, hQerr]
  have hro2 : (save_level strict maxD outId 0 F pdf []).pdf.rootOutlines = some outId := by
    rw [hQro, hro]
  have hfst2 : ((save_level strict maxD outId 0 F pdf []).pdf.heap outId).first = headObj F := by
    rw [hQparent]
  refine ⟨?_, by rw [hsave], ?_⟩
  · cases F with
    | nil =>
      have hfst : (pdf.heap outId).first = none := by
        cases hf : (pdf.heap outId).first with
        | none => rfl
        | some s =>
          rw [hf] at hrep
          exact absurd hrep (by simp [repChain])
      simp [Outline.rootP, Outline.init, Outline.loadRoot, hro, hfst]
    | cons i r =>
      obtain ⟨g, hobj, hstart, -⟩ :=
        repChain_cons pdf.heap maxD 0 ((pdf.heap outId).first) i r hrep
      have hlc := load_chain_rep strict maxD pdf 0 (i :: r) g fuel []
        (hstart ▸ hrep) hnd (fun x _ => rfl) hfuel
      simp [Outline.rootP, Outline.init, Outline.loadRoot, hro, hstart, hlc]
  · rw [hsave]
    have hrp := repChain_post pdf.heap
      (save_level strict maxD outId 0 F pdf []).pdf.heap maxD 0 outId none F hpre hQnodes
    rw [truncF_of_repChain pdf.heap maxD 0 ((pdf.heap outId).first) F hrep] at hrp
    cases F with
    | nil =>
      have hfstn : ((save_level strict maxD outId 0 [] pdf []).pdf.heap outId).first = none := by
        rw [hfst2]
        rfl
      simp [Outline.rootP, Outline.init, Outline.loadRoot, hro2, hfstn]
    | cons i r =>
      obtain ⟨g, hobj, hstart, -⟩ :=
        repChain_cons pdf.heap maxD 0 ((pdf.heap outId).first) i r hrep
      have hfstc : ((save_level strict maxD outId 0 (i :: r) pdf []).pdf.heap outId).first
          = some g := by
        rw [hfst2]
        simp [headObj, hobj]
      have hrp2 : repChain (save_level strict maxD outId 0 (i :: r) pdf []).pdf.heap
          maxD 0 (some g) (i :: r) := by
        have : headObj (i :: r) = some g := by simp [headObj, hobj]
        rw [this] at hrp
        exact hrp
      have hlc2 := load_chain_rep strict maxD
        (save_level strict maxD outId 0 (i :: r) pdf []).pdf 0 (i :: r) g fuel []
        hrp2 hnd (fun x _ => rfl) hfuel
      simp [Outline.rootP, Outline.init, Outline.loadRoot, hro2, hfstc, hlc2]
theorem claim_C1_witness :
    (c1pdf.rootOutlines = some 10 ∧
     repChain c1pdf.heap 15 0 ((c1pdf.heap 10).first) c1items = true ∧
     (idsTr 15 0 c1items).Nodup ∧ 10 ∉ idsTr 15 0 c1items ∧ sizeL c1items ≤ 3) ∧
    (Outline.rootP 3 (Outline.init c1pdf 15 false) =
      some (⟨c1pdf, some c1items, 15, false, false⟩, .ok c1items) ∧
    (Outline.save ⟨c1pdf, some c1items, 15, false, false⟩).2 = none ∧
    (Outline.rootP 3 (Outline.init
        (Outline.save ⟨c1pdf, some c1items, 15, false, false⟩).1.pdfDoc 15 false)).map
      (fun q => q.2) = some (.ok c1items)) :=
  ⟨⟨rfl, by simp [repChain, c1pdf, c1heap, c1items],
    by simp [idsTr, c1items], by simp [idsTr, c1items],
    by simp [sizeL, c1items]⟩,
   claim_C1_roundtrip c1pdf 15 false c1items 10 3 rfl
     (by simp [repChain, c1pdf, c1heap, c1items])
     (by simp [idsTr, c1items]) (by simp [idsTr, c1items])
     (by simp [sizeL, c1items])⟩
/-- C8: saving a well-formed root list writes no child linkage for items
at the depth limit, the reloaded tree is the depth-truncated image of the
original (items nested deeper than `max_depth` are gone), its nesting
stays within the limit, and neither the save nor the reload raises an
error — in strict and lax mode alike. -/
theorem claim_C8_depth (pdf : Pdf) (maxD : Nat) (b upd : Bool)
    (F : List OutlineItem) (outId fuel : Nat)
    (hro : pdf.rootOutlines = some outId)
    (hpre : preChain pdf.heap maxD 0 F = true)
    (hnd : (idsTr maxD 0 F).Nodup)
    (hout : outId ∉ idsTr maxD 0 F)
    (hfuel : sizeL F ≤ fuel) :
    (Outline.save ⟨pdf, some F, maxD, b, upd⟩).2 = none ∧
    truncSaved (Outline.save ⟨pdf, some F, maxD, b, upd⟩).1.pdfDoc.heap maxD 0 F = true ∧
    depthLeB (maxD + 1) (truncF maxD 0 F) = true ∧
    (Outline.rootP fuel (Outline.init
        (Outline.save ⟨pdf, some F, maxD, b, upd⟩).1.pdfDoc maxD b)).map
      (fun q => q.2) = some (.ok (truncF maxD 0 F)) := by
  have hQ := save_level_spec b maxD outId 0 F pdf [] hpre hnd (fun x _ => rfl) hout
  simp only [SaveLevelSpec] at hQ
  obtain ⟨hQerr, hQitems, hQvis, hQframe, hQparent, hQnodes, hQnid, hQnp, hQro⟩ := hQ
  have hsave : Outline.save ⟨pdf, some F, maxD, b, upd⟩ =
      (⟨(save_level b maxD outId 0 F pdf []).pdf, some F, maxD, b, upd⟩, none) := by
    simp only [Outline.save, hro]
    rw [hQitems, hQerr]
  have hro2 : (save_level b maxD outId 0 F pdf []).pdf.rootOutlines = some outId := by
    rw [hQro, hro]
  have hfst2 : ((save_level b maxD outId 0 F pdf []).pdf.heap outId).first = headObj F := by
    rw [hQparent]
  have hrp := repChain_post pdf.heap
    (save_level b maxD outId 0 F pdf []).pdf.heap maxD 0 outId none F hpre hQnodes
  refine ⟨by rw [hsave], ?_, ?_, ?_⟩
  · rw [hsave]
    exact truncSaved_of_nodesW pdf.heap _ maxD 0 outId none none F hQnodes
  · have := depthLeB_truncF maxD 0 F (Nat.zero_le maxD)
    simpa using this
  · rw [hsave]
    cases F with
    | nil =>
      have hfstn : ((save_level b maxD outId 0 [] pdf []).pdf.heap outId).first = none := by
        rw [hfst2]
        rfl
      simp [Outline.rootP, Outline.init, Outline.loadRoot, hro2, hfstn, truncF]
    | cons i r =>
      obtain ⟨g, hobj, -⟩ := preChain_dest_cases pdf.heap maxD 0 i r hpre
      have hfstc : ((save_level b maxD outId 0 (i :: r) pdf []).pdf.heap outId).first
          = some g := by
        rw [hfst2]
        simp [headObj, hobj]
      have hrp2 : repChain (save_level b maxD outId 0 (i :: r) pdf []).pdf.heap
          maxD 0 (some g) (truncF maxD 0 (i :: r)) := by
        have hh : headObj (i :: r) = some g := by simp [headObj, hobj]
        rw [hh] at hrp
        exact hrp
      have hlc2 := load_chain_rep b maxD
        (save_level b maxD outId 0 (i :: r) pdf []).pdf 0 (truncF maxD 0 (i :: r)) g fuel []
        hrp2
        (by rw [idsTr_truncF]; exact hnd)
        (fun x _ => rfl)
        (le_trans (sizeL_truncF_le maxD 0 (i :: r)) hfuel)
      simp [Outline.rootP, Outline.init, Outline.loadRoot, hro2, hfstc, hlc2]
theorem claim_C8_witness :
    (c1pdf.rootOutlines = some 10 ∧ preChain c1pdf.heap 0 0 c1items = true ∧
     (idsTr 0 0 c1items).Nodup ∧ 10 ∉ idsTr 0 0 c1items ∧ sizeL c1items ≤ 3) ∧
    ((Outline.save ⟨c1pdf, some c1items, 0, true, false⟩).2 = none ∧
     truncSaved (Outline.save ⟨c1pdf, some c1items, 0, true, false⟩).1.pdfDoc.heap 0 0 c1items = true ∧
     depthLeB (0 + 1) (truncF 0 0 c1items) = true ∧
     (Outline.rootP 3 (Outline.init
         (Outline.save ⟨c1pdf, some c1items, 0, true, false⟩).1.pdfDoc 0 true)).map
       (fun q => q.2) = some (.ok (truncF 0 0 c1items))) :=
  ⟨⟨rfl, by simp [preChain, c1pdf, c1heap, c1items],
    by simp [idsTr, c1items], by simp [idsTr, c1items],
    by simp [sizeL, c1items]⟩,
   claim_C8_depth c1pdf 0 true false c1items 10 3 rfl
     (by simp [preChain, c1pdf, c1heap, c1items])
     (by simp [idsTr, c1items]) (by simp [idsTr, c1items])
     (by simp [sizeL, c1items])⟩
end PikePdf
